import Mathlib

/-!
Verification of the SiMPL compiler core (middle-end type inference and
codegen passes) against its natural-language specification.

The development shallowly embeds the Rust sources:
  * `src/src/types/ty.rs`, `subst.rs`, `constraint.rs`, `mod.rs`
    (monotypes, substitutions, constraint collection, inference pipeline);
  * `src/src/codegen/anf.rs` (ANF normalization, continuation-passing);
  * `src/src/codegen/closure.rs` (free variables, closure conversion);
  * `src/src/codegen/util.rs` (set-valued free variables);
  * `src/crates/simpl-types/src/unify.rs` (the unifier of the
    `simpl-types` crate, with n-ary function types).

Conventions used throughout:
  * Rust `u32` counters and type-variable ids are embedded as `Nat`
    (no arithmetic in the embedded code can overflow a `u32` in any of
    the proofs' inputs, and the ids are only generated and compared).
  * Interned symbols (`simple_symbol::Symbol`) are embedded as `String`;
    the code only creates, compares and hashes them.
  * Rust `HashMap`s are embedded as association lists.  A `HashMap` has
    no observable iteration order; wherever the embedded code iterates
    over one (`Type::apply` folds over the entries of a substitution) the
    theorems quantify over an arbitrary permutation of the entry list,
    so that nothing proved depends on the order the model happens to
    store.  Lookup and insert are order-insensitive anyway.
  * `panic!` / `todo!` / failed `assert!` are embedded as explicit
    `panic`-constructors of result types (the code under inspection
    returns no partial output after a panic, so a sum type is faithful).
-/

namespace SiMPL

/-- Monotypes, from `src/src/types/ty.rs` (`enum Type`).  `TypeVar` ids are
`u32` in the source, embedded as `Nat`.  Named `Ty` because `Type` is a
Lean keyword. -/
inductive Ty where
  | int : Ty
  | float : Ty
  | bool : Ty
  | var : Nat → Ty
  | fn : Ty → Ty → Ty
deriving DecidableEq, Repr

/-- Literals, from `src/src/hir/mod.rs` (`enum Lit`).  The `f64` payload of
`Float` is carried as its (opaque) bit pattern: none of the code embedded
here computes with floats, it only stores and compares literals. -/
inductive Lit where
  | bool : Bool → Lit
  | int : Int → Lit
  | float : Nat → Lit
deriving DecidableEq, Repr

/-- Literal-to-type map, from `src/src/types/ty.rs` (`impl Lit { fn ty }`). -/
def Lit.ty : Lit → Ty
  | .int _ => .int
  | .bool _ => .bool
  | .float _ => .float

/-- A substitution, from `src/src/types/subst.rs`
(`struct Subst(HashMap<TypeVar, Type>)`), embedded as its entry list.
The entry order of the list is not observable to a Rust `HashMap` user;
theorems about entry-order-sensitive folds quantify over permutations. -/
abbrev Subst := List (Nat × Ty)

/-- Key lookup in a substitution (`HashMap::get`). -/
def Subst.lookupVar : Subst → Nat → Option Ty
  | [], _ => none
  | p :: rest, v => if p.1 = v then some p.2 else Subst.lookupVar rest v

/-- Key membership in a substitution (`HashMap::contains_key`). -/
def Subst.hasKey (s : Subst) (v : Nat) : Bool :=
  (Subst.lookupVar s v).isSome

/-- Occurrence of a type variable in a type (a structural walk; used to
state the substitution invariants.  The source has no such helper in
`src/src/types`; the sibling crate's `occurs` in
`src/crates/simpl-types/src/unify.rs` is the same walk for its own type). -/
def Ty.occurs (v : Nat) : Ty → Bool
  | .int | .float | .bool => false
  | .var w => w = v
  | .fn a b => Ty.occurs v a || Ty.occurs v b

/-- Replacement of all occurrences of `tvar` by `replacement`, from
`src/src/types/subst.rs` (`Subst::replace`). -/
def Subst.replace (ty : Ty) (tvar : Nat) (replacement : Ty) : Ty :=
  match ty with
  | .int | .bool | .float => ty
  | .var tvar2 => if tvar = tvar2 then replacement else ty
  | .fn a r => .fn (Subst.replace a tvar replacement) (Subst.replace r tvar replacement)

/-- Application of a substitution to a type, from `src/src/types/subst.rs`
(`Type::apply`): a fold of `replace` over the `HashMap`'s entries.  The
entry list given here stands for whatever order the `HashMap` iterates
in; theorems that depend on the result quantify over permutations. -/
def Ty.apply (ty : Ty) (s : Subst) : Ty :=
  s.foldl (fun acc p => Subst.replace acc p.1 p.2) ty

/-- Simultaneous (one-pass) substitution: replace each variable by its
image under the map, without iterating.  Not source code — a specification
device used to prove that the source's entry-order fold is
order-independent on the substitutions the unifier produces. -/
def Ty.applySim (s : Subst) : Ty → Ty
  | .int => .int
  | .bool => .bool
  | .float => .float
  | .var w => match Subst.lookupVar s w with
      | some t => t
      | none => .var w
  | .fn a b => .fn (Ty.applySim s a) (Ty.applySim s b)

/-- Composition of substitutions, from `src/src/types/subst.rs`
(`Subst::compose`): apply `other` to every range type of `self`, then
union, with `other`'s entries overriding `self`'s on shared keys (the
source first inserts the substituted `self` entries into a fresh map and
then `extend`s it with `other`, so `other` wins on conflict — its own
test `composes` documents this: "variable in subst2 overrides that in
subst1").  The entry order chosen here (self's entries, then other's new
keys) is one representative of the unordered `HashMap` content. -/
def Subst.compose (s other : Subst) : Subst :=
  (s.map fun p =>
    match Subst.lookupVar other p.1 with
    | some v => (p.1, v)
    | none => (p.1, Ty.apply p.2 other)) ++
  other.filter (fun q => ¬ Subst.hasKey s q.1)

/-- Variables occurring in some range type of a substitution. -/
def Subst.inRange (s : Subst) (v : Nat) : Prop :=
  ∃ p ∈ s, Ty.occurs v p.2 = true

/-- Variables occurring as a key of a substitution. -/
def Subst.inDom (s : Subst) (v : Nat) : Prop :=
  ∃ p ∈ s, p.1 = v

/-- The substitution invariant maintained by the unifier (spec §4.D:
"composition maintains the invariant that a variable appearing in the
range of the substitution does not also appear as a key"): keys are
pairwise distinct and no key occurs in any range type. -/
structure Subst.Inv (s : Subst) : Prop where
  nodup : (s.map Prod.fst).Nodup
  noKeyInRange : ∀ q ∈ s, ∀ p ∈ s, Ty.occurs q.1 p.2 = false

/-! ## Typed HIR and constraint collection

`src/src/hir/mod.rs` defines the typed HIR `Expr`; `src/src/types/constraint.rs`
walks it collecting equality constraints.  The `LetBinding` and `Param`
structs are flattened into constructor fields, and the `Vec<LetBinding>`
of `Letrec` becomes the mutually-defined list `HBinds` (so that all
recursions stay structural).  The snapshot's `constraint.rs` also carries
a `Binop` arm for a later HIR revision; the HIR enum embedded here
(matching `src/src/hir/mod.rs` and `src/src/types/ast.rs`, which the rest
of the pipeline uses) has no `Binop` variant, so that arm has no
counterpart. -/

mutual
inductive HExpr where
  | lit (ty : Ty) (val : Lit)
  | var (ty : Ty) (name : String)
  | ite (ty : Ty) (test then_ els : HExpr)
  | letE (ty : Ty) (bty : Ty) (bname : String) (bann : Option Ty) (bval : HExpr) (body : HExpr)
  | letrec (ty : Ty) (bindings : HBinds) (body : HExpr)
  | lam (ty : Ty) (pty : Ty) (pname : String) (pann : Option Ty) (body : HExpr)
  | app (ty : Ty) (func arg : HExpr)

inductive HBinds where
  | nil
  | cons (bty : Ty) (bname : String) (bann : Option Ty) (bval : HExpr) (rest : HBinds)
end

deriving instance DecidableEq for HExpr

/-- Type of an expression node, from `src/src/hir/mod.rs` (`Expr::ty`). -/
def HExpr.tyOf : HExpr → Ty
  | .lit ty _ | .var ty _ | .ite ty _ _ _ | .letE ty _ _ _ _ _
  | .letrec ty _ _ | .lam ty _ _ _ _ | .app ty _ _ => ty

/-- Type environment, from `src/src/types/ty.rs`
(`struct TypeEnv(HashMap<Symbol, Type>)`), as an association list where
`insert` conses (first match wins on lookup, like the map's overwrite). -/
abbrev TEnv := List (String × Ty)

def TEnv.get : TEnv → String → Option Ty
  | [], _ => none
  | p :: rest, x => if p.1 = x then some p.2 else TEnv.get rest x

def TEnv.insert (env : TEnv) (n : String) (t : Ty) : TEnv := (n, t) :: env

/-- Built-in environment, from `src/src/types/ty.rs` (`TypeEnv::default`). -/
def TEnv.default : TEnv :=
  [ ("add", .fn .int (.fn .int .int)),
    ("sub", .fn .int (.fn .int .int)),
    ("mul", .fn .int (.fn .int .int)),
    ("is_zero", .fn .int .bool),
    ("not", .fn .bool .bool) ]

/-- An equality constraint, from `src/src/types/constraint.rs`
(`struct Constraint(Type, Type)`). -/
abbrev Constraint := Ty × Ty

/-- Outcome of constraint collection: either the constraint list, or a
process-aborting `panic!` with its message (the source's `collect_inner`
panics on unbound variables, and its `Letrec` arm `assert!`s the binding
list nonempty; it has no error-value channel). -/
inductive CollectRes where
  | ok (cons : List Constraint)
  | panic (msg : String)
deriving DecidableEq, Repr

/-- Sequencing of collection results: `cons.extend(collect_inner(..))`,
with an earlier panic aborting before later children run. -/
def CollectRes.append : CollectRes → CollectRes → CollectRes
  | .panic m, _ => .panic m
  | .ok _, .panic m => .panic m
  | .ok c, .ok d => .ok (c ++ d)

/-- Constraints `binding.ty ≡ binding.val.ty()` pushed for the bindings of
a `Letrec`, in order (`src/src/types/constraint.rs`, first loop). -/
def HBinds.cons_tys : HBinds → List Constraint
  | .nil => []
  | .cons bty _ _ bval rest => (bty, bval.tyOf) :: HBinds.cons_tys rest

/-- Environment extension with every `Letrec` binding, in order (the later
insert wins on duplicate names, as with `HashMap::insert`). -/
def HBinds.extendEnv : HBinds → TEnv → TEnv
  | .nil, env => env
  | .cons bty bname _ _ rest, env => HBinds.extendEnv rest (env.insert bname bty)

mutual
/-- Constraint collection, from `src/src/types/constraint.rs`
(`collect_inner`).  `Var` looks the name up and panics when absent;
`Let` collects the binding value under the *outer* environment;
`Letrec` asserts nonemptiness, extends the environment with every
binding, then collects all values and the body under the extension. -/
def collect_inner : HExpr → TEnv → CollectRes
  | .lit ty val, _ => .ok [(ty, val.ty)]
  | .var ty name, tenv =>
      match tenv.get name with
      | some ty2 => .ok [(ty, ty2)]
      | none => .panic ("Unbound variable: " ++ name)
  | .ite ty test then_ els, tenv =>
      ((((CollectRes.ok [(test.tyOf, .bool), (then_.tyOf, ty), (els.tyOf, ty)]).append
        (collect_inner test tenv)).append
        (collect_inner then_ tenv)).append
        (collect_inner els tenv))
  | .letE ty bty bname bann bval body, tenv =>
      let ext := tenv.insert bname bty
      let base := [(ty, body.tyOf), (bty, bval.tyOf)] ++
        (match bann with
         | some a => [(a, bval.tyOf)]
         | none => [])
      (((CollectRes.ok base).append (collect_inner bval tenv)).append
        (collect_inner body ext))
  | .letrec ty bindings body, tenv =>
      match bindings with
      | .nil => .panic "assertion failed: !bindings.is_empty()"
      | bs =>
        let ext := bs.extendEnv tenv
        (((CollectRes.ok ((ty, body.tyOf) :: bs.cons_tys)).append
          (collect_vals bs ext)).append
          (collect_inner body ext))
  | .lam ty pty pname pann body, tenv =>
      let ext := tenv.insert pname pty
      let base := (ty, Ty.fn pty body.tyOf) ::
        (match pann with
         | some a => [(a, pty)]
         | none => [])
      (CollectRes.ok base).append (collect_inner body ext)
  | .app ty func arg, tenv =>
      (((CollectRes.ok [(func.tyOf, Ty.fn arg.tyOf ty)]).append
        (collect_inner func tenv)).append
        (collect_inner arg tenv))

/-- Collection over the values of `Letrec` bindings, in order, under the
extended environment (`src/src/types/constraint.rs`, second loop). -/
def collect_vals : HBinds → TEnv → CollectRes
  | .nil, _ => .ok []
  | .cons _ _ _ bval rest, tenv =>
      (collect_inner bval tenv).append (collect_vals rest tenv)
end

/-- Toplevel collection under the default environment, from
`src/src/types/constraint.rs` (`collect`). -/
def collect (e : HExpr) : CollectRes :=
  collect_inner e TEnv.default

/-! ## The unifier

`src/src/types/mod.rs` declares `mod unify;` and calls `unify::unify`,
but `unify.rs` is absent from the `src/src/types` snapshot. -/

/-- Application of a substitution to a constraint, from
`src/src/types/subst.rs` (`Constraint::apply` / `Subst::apply_con`). -/
def applyCon (s : Subst) (c : Constraint) : Constraint :=
  (c.1.apply s, c.2.apply s)

/-- Application to a constraint list (`Subst::apply_cons`). -/
def applyCons (s : Subst) (cs : List Constraint) : List Constraint :=
  cs.map (applyCon s)

/-- Modelled from the spec: `bind(v, ty)` of §4.D (the file
`src/src/types/unify.rs` is missing from the snapshot; this follows the
spec's algorithm, which matches the sibling implementation in
`src/crates/simpl-types/src/unify.rs`).  Binding a variable to itself is
the identity; binding to a type containing it fails the occurs check
(`none`, a panic in the sibling implementation); otherwise a singleton. -/
def unifyVar (v : Nat) (ty : Ty) : Option Subst :=
  if ty = .var v then some []
  else if Ty.occurs v ty then none
  else some [(v, ty)]

/-- Modelled from the spec: `unify` of §4.D (with `unify1` inlined in the
head position so that the recursion is structural on the fuel, which the
kernel can evaluate; `unify1` below is the head-solver as a separate
definition).  Empty list: identity substitution.  Otherwise solve the
head constraint — equal primitives give the identity, a variable on
either side delegates to `bind`, two `Fn` types unify their components as
a two-element list, anything else is a `TypeMismatch` failure (`none`) —
then apply the resulting substitution to the tail, recurse, and compose
(`subst.compose(&subst_tail)`, `self` being the head's substitution).
The `fuel` argument makes the non-structural recursion total; every
theorem quantifies over it or instantiates it large enough. -/
def unify : Nat → List Constraint → Option Subst
  | 0, _ => none
  | _ + 1, [] => some []
  | fuel + 1, c :: tail => do
      let s1 ← (match c with
        | (.int, .int) | (.bool, .bool) | (.float, .float) => some ([] : Subst)
        | (.var v, t) => unifyVar v t
        | (t, .var v) => unifyVar v t
        | (.fn a1 r1, .fn a2 r2) => unify fuel [(a1, a2), (r1, r2)]
        | (_, _) => none)
      let s2 ← unify fuel (applyCons s1 tail)
      some (Subst.compose s1 s2)

/-- Modelled from the spec: `unify1` of §4.D, as a standalone definition
(the head-solver inlined in `unify` above). -/
def unify1 (fuel : Nat) : Constraint → Option Subst
  | (.int, .int) | (.bool, .bool) | (.float, .float) => some []
  | (.var v, t) => unifyVar v t
  | (t, .var v) => unifyVar v t
  | (.fn a1 r1, .fn a2 r2) => unify fuel [(a1, a2), (r1, r2)]
  | (_, _) => none

/-- The step equation of `unify` in terms of `unify1`. -/
theorem unify_cons_eq (fuel : Nat) (c : Constraint) (tail : List Constraint) :
    unify (fuel + 1) (c :: tail) = (do
      let s1 ← unify1 fuel c
      let s2 ← unify fuel (applyCons s1 tail)
      some (Subst.compose s1 s2)) := by
  obtain ⟨t, u⟩ := c
  cases t <;> cases u <;> rfl

/-! ## Applying the substitution to the tree -/

mutual
/-- Substitution application to a typed tree, from `src/src/types/subst.rs`
(`TypedExpr::apply`).  Note the `Let`/`Letrec` arms of the source update
only the binding's `ty` (via `..binding.clone()`) and do **not** recurse
into the binding's value; the embedding reproduces that. -/
def HExpr.applyS : HExpr → Subst → HExpr
  | .lit ty v, s => .lit (ty.apply s) v
  | .var ty n, s => .var (ty.apply s) n
  | .ite ty t a b, s => .ite (ty.apply s) (t.applyS s) (a.applyS s) (b.applyS s)
  | .letE ty bty bn ba bv body, s =>
      .letE (ty.apply s) (bty.apply s) bn ba bv (body.applyS s)
  | .letrec ty bs body, s => .letrec (ty.apply s) (bs.applyS s) (body.applyS s)
  | .lam ty pty pn pa body, s => .lam (ty.apply s) (pty.apply s) pn pa (body.applyS s)
  | .app ty f a, s => .app (ty.apply s) (f.applyS s) (a.applyS s)

/-- The `Letrec` arm's binding treatment: each binding's `ty` is applied,
its value is kept as-is (`..binding.clone()`). -/
def HBinds.applyS : HBinds → Subst → HBinds
  | .nil, _ => .nil
  | .cons bty bn ba bv rest, s => .cons (bty.apply s) bn ba bv (rest.applyS s)
end

/-! ## ANF normalization

`src/src/codegen/anf.rs` normalizes the typed HIR (the `TypedExpr` shape
of `src/src/types/ast.rs`: `If` with `then_branch`/`else_branch`,
`LetBinding { ty, name, val }`, `Param { ty, name }`).  Its `Letrec` arms
are `todo!()` (a panic): the normalizer is defined only on the
letrec-free fragment, which is exactly what the claims address, so the
expression type embedded here is that fragment. -/

inductive AExpr where
  | lit (ty : Ty) (val : Lit)
  | var (ty : Ty) (name : String)
  | ite (ty : Ty) (test then_branch else_branch : AExpr)
  | letE (ty : Ty) (bty : Ty) (bname : String) (bval : AExpr) (body : AExpr)
  | lam (ty : Ty) (pty : Ty) (pname : String) (body : AExpr)
  | app (ty : Ty) (func arg : AExpr)
deriving DecidableEq, Repr

/-- Node type, from `src/src/types/ast.rs` (`TypedExpr::ty`). -/
def AExpr.tyA : AExpr → Ty
  | .lit ty _ | .var ty _ | .ite ty _ _ _ | .letE ty _ _ _ _
  | .lam ty _ _ _ | .app ty _ _ => ty

mutual
/-- Output-language check `is_e`, from `src/src/codegen/anf.rs`.  Note the
source requires the `If` *branches* to be atomic as well (its comment
grammar says `if ae e e`, but the code tests `then_branch.is_ae()` and
`else_branch.is_ae()`).  The source's wildcard arm `_ => self.is_ae()`
is spelled out per remaining constructor; its `Letrec` arm is `todo!()`
(no letrec in the embedded fragment). -/
def AExpr.is_e : AExpr → Bool
  | .ite _ test tb eb => test.is_ae && tb.is_ae && eb.is_ae
  | .letE _ _ _ bval body => bval.is_e && body.is_e
  | .app _ f a => f.is_ae && a.is_ae
  | .lit ty v => (AExpr.lit ty v).is_ae
  | .var ty n => (AExpr.var ty n).is_ae
  | .lam ty pty pn b => (AExpr.lam ty pty pn b).is_ae

/-- Atomic-expression check `is_ae`, from `src/src/codegen/anf.rs`:
lambdas (with normal body), literals and variables; the wildcard arm is
spelled out per constructor. -/
def AExpr.is_ae : AExpr → Bool
  | .lam _ _ _ body => body.is_e
  | .lit _ _ | .var _ _ => true
  | .ite _ _ _ _ | .letE _ _ _ _ _ | .app _ _ _ => false
end

/-- Top-level ANF check `is_anf`, from `src/src/codegen/anf.rs`. -/
def AExpr.is_anf (e : AExpr) : Bool := e.is_e

/-- A continuation of the normalizer: the source's
`Box<dyn FnOnce(Expr) -> Expr>`, with the process-wide gensym counter
(`GENSYM`, prefix `"$"`) threaded explicitly as a `Nat`. -/
abbrev K := AExpr → Nat → AExpr × Nat

/-- The closure `normalize_name` passes to `normalize`
(`src/src/codegen/anf.rs`, lines 124–143): a literal or variable is fed
to `k` unchanged; any other normalized subterm is bound to a fresh
gensym-named variable by a surrounding `Let` whose binder (and the `Let`
itself, and the variable) carry the subterm's type, and `k` receives that
variable.  `Gensym::next` returns prefix `"$"` + the current counter and
increments it. -/
def wrapGensym (k : K) : K := fun m n =>
  match m with
  | .lit _ _ | .var _ _ => k m n
  | _ =>
    let name := "$" ++ toString n
    let ty := m.tyA
    let r := k (.var ty name) (n + 1)
    (.letE ty ty name m r.1, r.2)

/-- The continuation-passing normalizer, from `src/src/codegen/anf.rs`
(`normalize`).  Calls of the source's `normalize_name(e, k)` appear as
`normalize e (wrapGensym k)` and calls of `normalize_expr_inner(e)` as
`normalize e (fun x m => (x, m))`, both unfolded so that the recursion is
structural on the expression.  The counter threading follows the source's
evaluation order exactly.  The source's `Letrec` arm is `todo!()` and has
no counterpart (the expression type is letrec-free). -/
def normalize : AExpr → K → Nat → AExpr × Nat
  | .lit ty v, k, n => k (.lit ty v) n
  | .var ty x, k, n => k (.var ty x) n
  | .ite ty t tb eb, k, n =>
      normalize t (wrapGensym fun t1 n1 =>
        let r2 := normalize tb (fun x m => (x, m)) n1
        let r3 := normalize eb (fun x m => (x, m)) r2.2
        k (.ite ty t1 r2.1 r3.1) r3.2) n
  | .letE ty bty bx bval body, k, n =>
      normalize bval (fun v1 n1 =>
        let r := normalize body k n1
        (.letE ty bty bx v1 r.1, r.2)) n
  | .lam ty pty px body, k, n =>
      let r := normalize body (fun x m => (x, m)) n
      k (.lam ty pty px r.1) r.2
  | .app ty f a, k, n =>
      normalize f (wrapGensym fun f1 n1 =>
        normalize a (wrapGensym fun a1 n2 => k (.app ty f1 a1) n2) n1) n

/-- The source's `normalize_name`, as a wrapper (see `wrapGensym`). -/
def normalize_name (e : AExpr) (k : K) (n : Nat) : AExpr × Nat :=
  normalize e (wrapGensym k) n

/-- The source's `normalize_expr_inner`: normalize with the identity
continuation. -/
def normalize_expr_inner (e : AExpr) (n : Nat) : AExpr × Nat :=
  normalize e (fun x m => (x, m)) n

/-- The source's `normalize_expr`: reset the gensym counter, then
normalize. -/
def normalize_expr (e : AExpr) : AExpr :=
  (normalize_expr_inner e 0).1

/-! ### Alpha-equivalence

Modelled from the spec: the spec's ANF idempotence property is stated "up
to an α-equivalent tree", but the snapshot's `is_alpha_eq`
(`src/src/codegen/rename.rs`) is a stub whose `Lambda`/`App`/`Letrec`
arms are `todo!()`; the standard structural definition with a renaming
environment is used instead. -/

/-- First binding of a name on the left of a renaming pair list. -/
def lookL : List (String × String) → String → Option String
  | [], _ => none
  | (a, b) :: rest, x => if a = x then some b else lookL rest x

/-- First binding of a name on the right of a renaming pair list. -/
def lookR : List (String × String) → String → Option String
  | [], _ => none
  | (a, b) :: rest, x => if b = x then some a else lookR rest x

/-- Structural α-equivalence under a list of binder pairs: bound
occurrences must be paired (consistently in both directions), free
occurrences must be equal.  Types are not compared (the source's
`is_alpha_eq` also ignores them). -/
def alphaEq : List (String × String) → AExpr → AExpr → Bool
  | _, .lit _ v, .lit _ v' => v = v'
  | m, .var _ x, .var _ x' =>
      match lookL m x, lookR m x' with
      | some b, some a => b = x' && a = x
      | none, none => x = x'
      | _, _ => false
  | m, .ite _ t a b, .ite _ t' a' b' =>
      alphaEq m t t' && alphaEq m a a' && alphaEq m b b'
  | m, .letE _ _ x v b, .letE _ _ x' v' b' =>
      alphaEq m v v' && alphaEq ((x, x') :: m) b b'
  | m, .lam _ _ x b, .lam _ _ x' b' => alphaEq ((x, x') :: m) b b'
  | m, .app _ f a, .app _ f' a' => alphaEq m f f' && alphaEq m a a'
  | _, _, _ => false

/-! ## Free variables and closure conversion

`src/src/codegen/closure.rs` converts the typed HIR (`crate::hir::Expr`)
into the closure-converted IR `CExpr`.  Its `Binop` arms are `todo!()`
(the HIR enum embedded here, from `src/src/hir/mod.rs`, has no `Binop`
variant).  `FreeVars = IndexMap<Symbol, Type>` is embedded as an
insertion-ordered association list; `IndexMap::extend` keeps the position
of an existing key while overwriting its value and appends new keys. -/

/-- Insertion-ordered map from names to types (`IndexMap<Symbol, Type>`). -/
abbrev FreeVars := List (String × Ty)

def FreeVars.lookupF : FreeVars → String → Option Ty
  | [], _ => none
  | p :: rest, x => if p.1 = x then some p.2 else FreeVars.lookupF rest x

def FreeVars.hasKeyF (m : FreeVars) (x : String) : Bool :=
  (m.lookupF x).isSome

/-- Union of insertion-ordered maps, from `src/src/codegen/closure.rs`
(`imap_union`: a fresh map extended with `hm1`, then `hm2`): `hm1`'s
entries keep their positions, with values overwritten by `hm2` on shared
keys; `hm2`'s new keys are appended in order. -/
def imap_union (m1 m2 : FreeVars) : FreeVars :=
  (m1.map fun p =>
    match m2.lookupF p.1 with
    | some v => (p.1, v)
    | none => p) ++
  m2.filter (fun q => ¬ m1.hasKeyF q.1)

/-- Difference of insertion-ordered maps, from
`src/src/codegen/closure.rs` (`imap_diff`): keep the entries of `hm1`
whose key is not in `hm2`, preserving order. -/
def imap_diff (m1 m2 : FreeVars) : FreeVars :=
  m1.filter (fun p => ¬ m2.hasKeyF p.1)

/-- The name-to-type map of a binding list (the subtrahend of the
`Letrec` arm of `free_vars`). -/
def HBinds.keyMap : HBinds → FreeVars
  | .nil => []
  | .cons bty bname _ _ rest => (bname, bty) :: rest.keyMap

mutual
/-- Free variables as an insertion-ordered name-to-type map, from
`src/src/codegen/closure.rs` (`free_vars`).  Note the `Let` arm subtracts
the bound name from the *union* of the value's and the body's free
variables. -/
def free_vars : HExpr → FreeVars
  | .lit _ _ => []
  | .var ty name => [(name, ty)]
  | .ite _ test then_ els =>
      imap_union (imap_union (free_vars test) (free_vars then_)) (free_vars els)
  | .letE _ bty bname _ bval body =>
      imap_diff (imap_union (free_vars bval) (free_vars body)) [(bname, bty)]
  | .letrec _ bindings body =>
      imap_diff (fv_fold_vals bindings (free_vars body)) bindings.keyMap
  | .lam _ pty pname _ body => imap_diff (free_vars body) [(pname, pty)]
  | .app _ func arg => imap_union (free_vars func) (free_vars arg)

/-- The `Letrec` fold: `bindings.iter().fold(free_vars(body), |acc, b|
imap_union(acc, free_vars(&*b.val)))`. -/
def fv_fold_vals : HBinds → FreeVars → FreeVars
  | .nil, acc => acc
  | .cons _ _ _ bval rest, acc => fv_fold_vals rest (imap_union acc (free_vars bval))
end

mutual
/-- Closure-converted IR, from `src/src/codegen/closure.rs`
(`enum CExpr`): the typed-HIR shapes with `Lambda` replaced by
`MkClosure` (parameter, ordered free-variable map, body) and a new
`EnvRef` variant.  `Param` and the IR's own `LetBinding { ty, name, val }`
are flattened into constructor fields; `Letrec`'s binding vector is the
mutually-defined `CBinds`. -/
inductive CExpr where
  | lit (ty : Ty) (val : Lit)
  | var (ty : Ty) (name : String)
  | envRef (ty : Ty) (name : String)
  | ite (ty : Ty) (test then_ els : CExpr)
  | letE (ty : Ty) (bty : Ty) (bname : String) (bval : CExpr) (body : CExpr)
  | letrec (ty : Ty) (bindings : CBinds) (body : CExpr)
  | mkClosure (ty : Ty) (pty : Ty) (pname : String) (pann : Option Ty)
      (fvs : FreeVars) (body : CExpr)
  | app (ty : Ty) (func arg : CExpr)

inductive CBinds where
  | nil
  | cons (bty : Ty) (bname : String) (bval : CExpr) (rest : CBinds)
end

/-- Substitution maps of the converter: `HashMap<Symbol, CExpr>`. -/
abbrev CSubst := List (String × CExpr)

deriving instance DecidableEq for CExpr

def CSubst.lookupC : CSubst → String → Option CExpr
  | [], _ => none
  | p :: rest, x => if p.1 = x then some p.2 else CSubst.lookupC rest x

def CSubst.hasKeyC (s : CSubst) (x : String) : Bool :=
  (s.lookupC x).isSome

mutual
/-- Variable rewriting, from `src/src/codegen/closure.rs` (`substitute`):
a `Var` in the map's domain is replaced by its image
(`subst.get(&name).unwrap_or(&expr)`); `Lit` and `EnvRef` are unchanged;
every other node — `MkClosure` included — is traversed recursively. -/
def CExpr.substitute : CExpr → CSubst → CExpr
  | .lit ty v, _ => .lit ty v
  | .envRef ty n, _ => .envRef ty n
  | .var ty name, subst =>
      match subst.lookupC name with
      | some c => c
      | none => .var ty name
  | .ite ty t a b, subst =>
      .ite ty (t.substitute subst) (a.substitute subst) (b.substitute subst)
  | .letE ty bty bn bv body, subst =>
      .letE ty bty bn (bv.substitute subst) (body.substitute subst)
  | .letrec ty bs body, subst => .letrec ty (bs.substitute subst) (body.substitute subst)
  | .mkClosure ty pty pn pa fvs body, subst =>
      .mkClosure ty pty pn pa fvs (body.substitute subst)
  | .app ty f a, subst => .app ty (f.substitute subst) (a.substitute subst)

def CBinds.substitute : CBinds → CSubst → CBinds
  | .nil, _ => .nil
  | .cons bty bn bv rest, subst =>
      .cons bty bn (bv.substitute subst) (rest.substitute subst)
end

/-- The `Var`-to-`EnvRef` map the converter builds from a free-variable
map (`src/src/codegen/closure.rs`, the `subst` local of the `Lambda`
arm). -/
def envSubst (fvs : FreeVars) : CSubst :=
  fvs.map fun p => (p.1, CExpr.envRef p.2 p.1)

mutual
/-- Closure conversion, from `src/src/codegen/closure.rs` (`convert`).
All shapes map isomorphically except `Lambda`, which becomes `MkClosure`
of the lambda's free-variable map, with the converted body's captured
references rewritten to `EnvRef` by `substitute`. -/
def convert : HExpr → CExpr
  | .lit ty v => .lit ty v
  | .var ty n => .var ty n
  | .ite ty t a b => .ite ty (convert t) (convert a) (convert b)
  | .letE ty bty bn _ bv body => .letE ty bty bn (convert bv) (convert body)
  | .letrec ty bs body => .letrec ty (convertBinds bs) (convert body)
  | .lam ty pty pname pann body =>
      let fv := free_vars (.lam ty pty pname pann body)
      .mkClosure ty pty pname pann fv ((convert body).substitute (envSubst fv))
  | .app ty f a => .app ty (convert f) (convert a)

def convertBinds : HBinds → CBinds
  | .nil => .nil
  | .cons bty bn _ bv rest => .cons bty bn (convert bv) (convertBinds rest)
end

mutual
/-- Whether a `Var` node with the given name occurs anywhere in the
converted tree (at any depth, nested closures included).  Used to state
closure-conversion soundness. -/
def CExpr.containsVar : CExpr → String → Bool
  | .lit _ _, _ | .envRef _ _, _ => false
  | .var _ n, x => n = x
  | .ite _ t a b, x => t.containsVar x || a.containsVar x || b.containsVar x
  | .letE _ _ _ bv body, x => bv.containsVar x || body.containsVar x
  | .letrec _ bs body, x => bs.containsVar x || body.containsVar x
  | .mkClosure _ _ _ _ _ body, x => body.containsVar x
  | .app _ f a, x => f.containsVar x || a.containsVar x

def CBinds.containsVar : CBinds → String → Bool
  | .nil, _ => false
  | .cons _ _ bv rest, x => bv.containsVar x || rest.containsVar x
end

mutual
/-- Closure-conversion soundness predicate: inside the body of every
`MkClosure` (recursively), no `Var` node carries a name listed in that
closure's `free_vars` map. -/
def CExpr.closureSound : CExpr → Bool
  | .lit _ _ | .var _ _ | .envRef _ _ => true
  | .ite _ t a b => t.closureSound && a.closureSound && b.closureSound
  | .letE _ _ _ bv body => bv.closureSound && body.closureSound
  | .letrec _ bs body => bs.closureSound && body.closureSound
  | .mkClosure _ _ _ _ fvs body =>
      fvs.all (fun p => ¬ body.containsVar p.1) && body.closureSound
  | .app _ f a => f.closureSound && a.closureSound

def CBinds.closureSound : CBinds → Bool
  | .nil => true
  | .cons _ _ bv rest => bv.closureSound && rest.closureSound
end

/-- The name set of a binding list (the subtrahend of the `Letrec` arm of
`util.rs`'s `free_vars`). -/
def HBinds.nameSet : HBinds → Finset String
  | .nil => ∅
  | .cons _ bname _ _ rest => insert bname rest.nameSet

mutual
/-- Set-valued free variables, from `src/src/codegen/util.rs`
(`free_vars`, returning `HashSet<Symbol>`).  Note this version's `Let`
arm subtracts the bound name from the body's free variables only, before
the union with the value's. -/
def fvU : HExpr → Finset String
  | .lit _ _ => ∅
  | .var _ name => {name}
  | .ite _ test then_ els => (fvU test ∪ fvU then_) ∪ fvU els
  | .letE _ _ bname _ bval body => fvU bval ∪ (fvU body \ {bname})
  | .letrec _ bindings body => fvUFold bindings (fvU body) \ bindings.nameSet
  | .lam _ _ pname _ body => fvU body \ {pname}
  | .app _ func arg => fvU func ∪ fvU arg

def fvUFold : HBinds → Finset String → Finset String
  | .nil, acc => acc
  | .cons _ _ _ bval rest, acc => fvUFold rest (acc ∪ fvU bval)
end

/-! ## The `simpl-types` crate's unifier

`src/crates/simpl-types/src/unify.rs` (cited by C4) works over that
crate's `Type` (`src/crates/simpl-types/src/ty.rs`), whose function type
is n-ary: `Fn(Vec<Type>, Box<Type>)`.  The argument vector is embedded as
the mutually-defined list `CrTys`.  Its failures are `panic!`s
("Circular use: …" for the occurs check, "Cannot unify …" for a
structural mismatch), embedded as tagged panic outcomes carrying the
formatted data. -/

mutual
inductive CrTy where
  | int : CrTy
  | bool : CrTy
  | float : CrTy
  | var : Nat → CrTy
  | fn : CrTys → CrTy → CrTy

inductive CrTys where
  | nil : CrTys
  | cons : CrTy → CrTys → CrTys
end

deriving instance DecidableEq for CrTy

abbrev CrSubst := List (Nat × CrTy)

abbrev CrCon := CrTy × CrTy

def CrSubst.lookupVar : CrSubst → Nat → Option CrTy
  | [], _ => none
  | p :: rest, v => if p.1 = v then some p.2 else CrSubst.lookupVar rest v

def CrSubst.hasKey (s : CrSubst) (v : Nat) : Bool :=
  (CrSubst.lookupVar s v).isSome

mutual
/-- Occurrence check walk, from `src/crates/simpl-types/src/unify.rs`
(`occurs`): a variable matches itself; a function type is searched in
every argument and the return type. -/
def CrTy.occurs (v : Nat) : CrTy → Bool
  | .var w => w = v
  | .fn args ret => args.occursAny v || CrTy.occurs v ret
  | _ => false

def CrTys.occursAny (v : Nat) : CrTys → Bool
  | .nil => false
  | .cons t rest => CrTy.occurs v t || CrTys.occursAny v rest
end

mutual
/-- Replacement, from `src/crates/simpl-types/src/subst.rs`
(`Subst::replace`), mapped over the argument vector of `Fn`. -/
def CrTy.replace : CrTy → Nat → CrTy → CrTy
  | .int, _, _ => .int
  | .bool, _, _ => .bool
  | .float, _, _ => .float
  | .var w, v, r => if v = w then r else .var w
  | .fn args ret, v, r => .fn (args.replace v r) (CrTy.replace ret v r)

def CrTys.replace : CrTys → Nat → CrTy → CrTys
  | .nil, _, _ => .nil
  | .cons t rest, v, r => .cons (CrTy.replace t v r) (CrTys.replace rest v r)
end

/-- Application of a substitution to a type, from
`src/crates/simpl-types/src/subst.rs` (`Type::apply`): a fold of
`replace` over the map's entries. -/
def CrTy.apply (ty : CrTy) (s : CrSubst) : CrTy :=
  s.foldl (fun acc p => CrTy.replace acc p.1 p.2) ty

/-- Constraint application (`Constraint::apply` / `Subst::apply_cons`). -/
def crApplyCons (s : CrSubst) (cs : List CrCon) : List CrCon :=
  cs.map fun c => (c.1.apply s, c.2.apply s)

/-- Composition, from `src/crates/simpl-types/src/subst.rs`
(`Subst::compose`): identical in shape to the `src/src` version. -/
def CrSubst.compose (s other : CrSubst) : CrSubst :=
  (s.map fun p =>
    match CrSubst.lookupVar other p.1 with
    | some v => (p.1, v)
    | none => (p.1, CrTy.apply p.2 other)) ++
  other.filter (fun q => ¬ CrSubst.hasKey s q.1)

/-- Outcome of the crate's unifier: a substitution, or one of its two
`panic!`s, or fuel exhaustion of the embedding. -/
inductive CrRes where
  | ok (s : CrSubst)
  | panicCircular (v : Nat) (ty : CrTy)
  | panicMismatch (t u : CrTy)
  | outOfFuel

/-- Variable binding, from `src/crates/simpl-types/src/unify.rs`
(`unify_var`), arms in source order: the same variable is the identity; a
*different* variable is bound without an occurs check; any other type
containing `tvar` panics "Circular use: {tvar} occurs in {ty}"; otherwise
bind. -/
def crUnifyVar (v : Nat) (ty : CrTy) : CrRes :=
  match ty with
  | .var w => if w = v then .ok [] else .ok [(v, ty)]
  | _ => if CrTy.occurs v ty then .panicCircular v ty else .ok [(v, ty)]

/-- The truncating `zip` of two argument vectors into constraints
(`args1.into_iter().zip(args2)` of `unify1`'s `Fn` arm). -/
def zipCons : CrTys → CrTys → List CrCon
  | .nil, _ => []
  | _, .nil => []
  | .cons a1 r1, .cons a2 r2 => (a1, a2) :: zipCons r1 r2

/-- The constraint-list solver, from `src/crates/simpl-types/src/unify.rs`
(`unify`): solve the head (`unify1`, inlined here so that the recursion
is structural on the fuel — equal primitives are the identity, a variable
on either side delegates to `unify_var` with the or-pattern binding the
left side first, two `Fn` types unify the zipped arguments chained with
the return-type pair, anything else panics "Cannot unify {t1} with {t2}"),
apply the head's substitution to the tail, recurse, compose
(`subst.compose(&subst_tail)`). -/
def crUnify : Nat → List CrCon → CrRes
  | 0, _ => .outOfFuel
  | _ + 1, [] => .ok []
  | fuel + 1, c :: tail =>
      match (match c with
        | (.int, .int) | (.bool, .bool) | (.float, .float) => CrRes.ok []
        | (.var v, t) => crUnifyVar v t
        | (t, .var v) => crUnifyVar v t
        | (.fn args1 ret1, .fn args2 ret2) =>
            crUnify fuel (zipCons args1 args2 ++ [(ret1, ret2)])
        | (t, u) => .panicMismatch t u) with
      | .ok s1 =>
        match crUnify fuel (crApplyCons s1 tail) with
        | .ok s2 => .ok (s1.compose s2)
        | r => r
      | r => r

/-- One constraint, from `src/crates/simpl-types/src/unify.rs` (`unify1`),
as a standalone definition (the head-solver inlined in `crUnify`). -/
def crUnify1 (fuel : Nat) : CrCon → CrRes
  | (.int, .int) | (.bool, .bool) | (.float, .float) => .ok []
  | (.var v, t) => crUnifyVar v t
  | (t, .var v) => crUnifyVar v t
  | (.fn args1 ret1, .fn args2 ret2) =>
      crUnify fuel (zipCons args1 args2 ++ [(ret1, ret2)])
  | (t, u) => .panicMismatch t u

/-! ## Lemmas about the insertion-ordered maps (claim C7) -/

theorem FreeVars.hasKeyF_singleton (n x : String) (t : Ty) :
    FreeVars.hasKeyF [(n, t)] x = decide (n = x) := by
  by_cases h : n = x <;> simp [FreeVars.hasKeyF, FreeVars.lookupF, h]

theorem FreeVars.hasKeyF_of_mem (A : FreeVars) (p : String × Ty) (hp : p ∈ A) :
    A.hasKeyF p.1 = true := by
  induction A with
  | nil => cases hp
  | cons q rest ih =>
    rcases List.mem_cons.mp hp with h | h
    · subst h
      simp [FreeVars.hasKeyF, FreeVars.lookupF]
    · by_cases hq : q.1 = p.1
      · simp [FreeVars.hasKeyF, FreeVars.lookupF, hq]
      · simp only [FreeVars.hasKeyF, FreeVars.lookupF, hq, if_false]
        exact ih h

theorem FreeVars.lookupF_filter_keep (B : FreeVars) (x : String)
    (pr : String × Ty → Bool) (hK : ∀ p ∈ B, p.1 = x → pr p = true) :
    FreeVars.lookupF (B.filter pr) x = FreeVars.lookupF B x := by
  induction B with
  | nil => rfl
  | cons q rest ih =>
    have ih2 := ih (fun p hp => hK p (List.mem_cons_of_mem q hp))
    by_cases hpr : pr q = true
    · simp [List.filter_cons, hpr, FreeVars.lookupF, ih2]
    · have hqx : ¬ (q.1 = x) := fun h => hpr (hK q (List.mem_cons_self q rest) h)
      simp [List.filter_cons, hpr, FreeVars.lookupF, hqx, ih2]

theorem FreeVars.lookupF_filter_not_key (B : FreeVars) (n x : String) (t0 : Ty)
    (hx : ¬ (x = n)) :
    FreeVars.lookupF (B.filter fun p => ¬ FreeVars.hasKeyF [(n, t0)] p.1) x =
      FreeVars.lookupF B x := by
  apply FreeVars.lookupF_filter_keep
  intro p _ hp
  simp [hp, FreeVars.hasKeyF_singleton]
  exact fun h => hx h.symm

/-- Claim C7 (amended): the insertion-ordered free-variable analyzer of
`src/src/codegen/closure.rs` subtracts the bound name of a `Let` from the
*union* of the value's and the body's free variables; the claimed
equation `fv(val) ⊎ (fv(body) ∖ {name})` therefore holds exactly when the
bound name does not occur free in the binding's value.  (The set-valued
analyzer of `src/src/codegen/util.rs` satisfies the claimed equation
unconditionally; second conjunct.) -/
theorem free_vars_let_amended (ty bty : Ty) (n : String) (ann? : Option Ty)
    (val body : HExpr) (h : (free_vars val).hasKeyF n = false) :
    free_vars (.letE ty bty n ann? val body) =
      imap_union (free_vars val) (imap_diff (free_vars body) [(n, bty)]) ∧
    fvU (.letE ty bty n ann? val body) = fvU val ∪ (fvU body \ {n}) := by
  refine ⟨?_, rfl⟩
  show imap_diff (imap_union (free_vars val) (free_vars body)) [(n, bty)] =
    imap_union (free_vars val) (imap_diff (free_vars body) [(n, bty)])
  generalize free_vars val = A at h
  generalize free_vars body = B
  have hA : ∀ p ∈ A, ¬ (p.1 = n) := by
    intro p hp hcon
    have hk := FreeVars.hasKeyF_of_mem A p hp
    rw [hcon, h] at hk
    exact Bool.false_ne_true hk
  unfold imap_diff imap_union
  rw [List.filter_append]
  congr 1
  · rw [List.filter_eq_self.mpr]
    · apply List.map_congr_left
      intro p hp
      rw [FreeVars.lookupF_filter_not_key B n p.1 bty (hA p hp)]
    · intro p hp
      obtain ⟨q, hq, rfl⟩ := List.mem_map.mp hp
      have hkey : (match FreeVars.lookupF B q.1 with
          | some v => (q.1, v)
          | none => q).1 = q.1 := by
        cases FreeVars.lookupF B q.1 <;> rfl
      simp only [hkey, FreeVars.hasKeyF_singleton]
      simpa using fun hc => (hA q hq) hc.symm
  · rw [List.filter_filter, List.filter_filter]
    apply List.filter_congr
    intro q hq
    exact Bool.and_comm _ _

/-- Claim C7 (counterexample): on `let x = x in 1` the analyzer of
`closure.rs` returns the empty map (the bound name was subtracted from
the union, erasing the value's free occurrence of `x`), while the claimed
equation `fv(val) ⊎ (fv(body) ∖ {name})` yields `{x ↦ t2}`. -/
theorem free_vars_let_cex :
    free_vars (.letE (.var 0) (.var 1) "x" none (.var (.var 2) "x")
        (.lit (.var 3) (.int 1))) ≠
      imap_union (free_vars (.var (.var 2) "x"))
        (imap_diff (free_vars (.lit (.var 3) (.int 1))) [("x", .var 1)]) := by
  decide

/-- Witness for `free_vars_let_amended` at a concrete `Let` whose bound
name is not free in its value. -/
theorem free_vars_let_amended_witness :
    (free_vars (.lit (.var 5) (.int 7))).hasKeyF "x" = false ∧
    free_vars (.letE (.var 0) (.var 1) "x" none (.lit (.var 5) (.int 7))
        (.var (.var 2) "x")) =
      imap_union (free_vars (.lit (.var 5) (.int 7)))
        (imap_diff (free_vars (.var (.var 2) "x")) [("x", .var 1)]) :=
  ⟨by decide,
    (free_vars_let_amended (.var 0) (.var 1) "x" none (.lit (.var 5) (.int 7))
      (.var (.var 2) "x") (by decide)).1⟩

/-! ## Lemmas about `substitute` (claims C9 and C2) -/

theorem CSubst.lookupC_none (s : CSubst) (x : String)
    (h : ∀ p ∈ s, ¬ (p.1 = x)) : CSubst.lookupC s x = none := by
  induction s with
  | nil => rfl
  | cons q rest ih =>
    simp only [CSubst.lookupC, h q (List.mem_cons_self q rest), if_false]
    exact ih fun p hp => h p (List.mem_cons_of_mem q hp)

mutual
theorem CExpr.substitute_no_var : ∀ (c : CExpr) (subst : CSubst),
    (∀ p ∈ subst, c.containsVar p.1 = false) → c.substitute subst = c
  | .lit _ _, _, _ => rfl
  | .envRef _ _, _, _ => rfl
  | .var ty name, subst, h => by
      have hnone : CSubst.lookupC subst name = none := by
        apply CSubst.lookupC_none
        intro p hp hpx
        have := h p hp
        simp [CExpr.containsVar, hpx] at this
      simp [CExpr.substitute, hnone]
  | .ite ty t a b, subst, h => by
      have h3 : ∀ p ∈ subst, t.containsVar p.1 = false ∧
          a.containsVar p.1 = false ∧ b.containsVar p.1 = false := by
        intro p hp
        have := h p hp
        simpa [CExpr.containsVar, and_assoc] using this
      simp [CExpr.substitute,
        CExpr.substitute_no_var t subst (fun p hp => (h3 p hp).1),
        CExpr.substitute_no_var a subst (fun p hp => (h3 p hp).2.1),
        CExpr.substitute_no_var b subst (fun p hp => (h3 p hp).2.2)]
  | .letE ty bty bn bv body, subst, h => by
      have h2 : ∀ p ∈ subst, bv.containsVar p.1 = false ∧
          body.containsVar p.1 = false := by
        intro p hp
        have := h p hp
        simpa [CExpr.containsVar] using this
      simp [CExpr.substitute,
        CExpr.substitute_no_var bv subst (fun p hp => (h2 p hp).1),
        CExpr.substitute_no_var body subst (fun p hp => (h2 p hp).2)]
  | .letrec ty bs body, subst, h => by
      have h2 : ∀ p ∈ subst, bs.containsVar p.1 = false ∧
          body.containsVar p.1 = false := by
        intro p hp
        have := h p hp
        simpa [CExpr.containsVar, CBinds.containsVar] using this
      simp [CExpr.substitute,
        CBinds.substituteBinds_no_var bs subst (fun p hp => (h2 p hp).1),
        CExpr.substitute_no_var body subst (fun p hp => (h2 p hp).2)]
  | .mkClosure ty pty pn pa fvs body, subst, h => by
      have h2 : ∀ p ∈ subst, body.containsVar p.1 = false := by
        intro p hp
        have := h p hp
        simpa [CExpr.containsVar] using this
      simp [CExpr.substitute, CExpr.substitute_no_var body subst h2]
  | .app ty f a, subst, h => by
      have h2 : ∀ p ∈ subst, f.containsVar p.1 = false ∧
          a.containsVar p.1 = false := by
        intro p hp
        have := h p hp
        simpa [CExpr.containsVar] using this
      simp [CExpr.substitute,
        CExpr.substitute_no_var f subst (fun p hp => (h2 p hp).1),
        CExpr.substitute_no_var a subst (fun p hp => (h2 p hp).2)]

theorem CBinds.substituteBinds_no_var : ∀ (bs : CBinds) (subst : CSubst),
    (∀ p ∈ subst, bs.containsVar p.1 = false) → bs.substitute subst = bs
  | .nil, _, _ => rfl
  | .cons bty bn bv rest, subst, h => by
      have h2 : ∀ p ∈ subst, bv.containsVar p.1 = false ∧
          rest.containsVar p.1 = false := by
        intro p hp
        have := h p hp
        simpa [CBinds.containsVar] using this
      simp [CBinds.substitute,
        CExpr.substitute_no_var bv subst (fun p hp => (h2 p hp).1),
        CBinds.substituteBinds_no_var rest subst (fun p hp => (h2 p hp).2)]
end

/-- Claim C9 (amended): the converter's `substitute` does **not** stop at
nested lambdas — its `MkClosure` arm recurses into the closure's body
(first conjunct, the defining equation), rewriting any domain `Var` found
there; a (nested) tree in which no `Var` carries a name from the
substitution's domain — the situation of an already-converted nested
closure body under the alpha-renaming precondition — is returned
unchanged (second conjunct). -/
theorem substitute_nested_amended :
    (∀ (ty pty : Ty) (pn : String) (pa : Option Ty) (fvs : FreeVars)
        (body : CExpr) (subst : CSubst),
      (CExpr.mkClosure ty pty pn pa fvs body).substitute subst =
        .mkClosure ty pty pn pa fvs (body.substitute subst)) ∧
    (∀ (c : CExpr) (subst : CSubst),
      (∀ p ∈ subst, c.containsVar p.1 = false) → c.substitute subst = c) :=
  ⟨fun _ _ _ _ _ _ _ => rfl, CExpr.substitute_no_var⟩

/-- Claim C9 (counterexample): substituting `x ↦ EnvRef x` into a
`MkClosure` whose body is `Var x` rewrites the nested body (to
`EnvRef x`), so the substitution did not leave the nested `MkClosure`'s
body unchanged. -/
theorem substitute_nested_cex :
    (CExpr.mkClosure (.var 0) (.var 1) "p" none [] (.var (.var 2) "x")).substitute
        [("x", CExpr.envRef (.var 2) "x")] =
      CExpr.mkClosure (.var 0) (.var 1) "p" none [] (.envRef (.var 2) "x") ∧
    CExpr.mkClosure (.var 0) (.var 1) "p" none [] (.envRef (.var 2) "x") ≠
      CExpr.mkClosure (.var 0) (.var 1) "p" none [] (.var (.var 2) "x") :=
  ⟨rfl, by decide⟩

/-- Witness for `substitute_nested_amended` at a concrete closure and a
substitution whose domain has no `Var` occurrence in it. -/
theorem substitute_nested_amended_witness :
    (∀ p ∈ ([("y", CExpr.envRef (.var 0) "y")] : CSubst),
      (CExpr.mkClosure (.var 0) (.var 1) "p" none []
        (.var (.var 2) "x")).containsVar p.1 = false) ∧
    (CExpr.mkClosure (.var 0) (.var 1) "p" none [] (.var (.var 2) "x")).substitute
        [("y", CExpr.envRef (.var 0) "y")] =
      CExpr.mkClosure (.var 0) (.var 1) "p" none [] (.var (.var 2) "x") :=
  ⟨by decide, substitute_nested_amended.2 _ _ (by decide)⟩

/-! ## Claim C4: the occurs check of the `simpl-types` unifier -/

/-- Claim C4 (amended): whenever unification would bind a variable `v` to
a type `ty` other than `TypeVar(v)` that contains `v`, `unify_var` panics
with "Circular use: {v} occurs in {ty}" — carrying exactly `v` and `ty` —
instead of producing a substitution.  (The code has no structured
`OccursCheck` error value; its only failure channel is the panic.) -/
theorem unify_var_occurs_amended (v : Nat) (ty : CrTy) (hne : ty ≠ .var v)
    (hocc : CrTy.occurs v ty = true) :
    crUnifyVar v ty = .panicCircular v ty := by
  cases ty with
  | var w =>
    simp only [CrTy.occurs, decide_eq_true_eq] at hocc
    exact absurd (by rw [hocc]) hne
  | int => simp [CrTy.occurs] at hocc
  | bool => simp [CrTy.occurs] at hocc
  | float => simp [CrTy.occurs] at hocc
  | fn args ret => simp [crUnifyVar, hocc]

/-- Witness for `unify_var_occurs_amended` at `v = 1`,
`ty = Fn([t1], Int)`. -/
theorem unify_var_occurs_amended_witness :
    (CrTy.fn (.cons (.var 1) .nil) .int ≠ .var 1) ∧
    CrTy.occurs 1 (CrTy.fn (.cons (.var 1) .nil) .int) = true ∧
    crUnifyVar 1 (CrTy.fn (.cons (.var 1) .nil) .int) =
      .panicCircular 1 (CrTy.fn (.cons (.var 1) .nil) .int) :=
  ⟨by decide, rfl,
    unify_var_occurs_amended 1 (CrTy.fn (.cons (.var 1) .nil) .int)
      (by decide) rfl⟩

/-- Claim C4 (counterexample): on the constraints §4.C generates for
`\x -> x x` — `t1 ≡ Fn([t2], t3)` and `t2 ≡ Fn([t2], t3)` — the unifier's
result is the "Circular use" panic (a process abort carrying `v = 2` and
the offending type in its message), not a returned `OccursCheck(v, ty)`
error value; the embedded result type, translated from the source, has no
error-value constructor at all. -/
theorem occurs_check_panic_cex :
    crUnify 10 [(CrTy.var 1, CrTy.fn (.cons (.var 2) .nil) (.var 3)),
                (CrTy.var 2, CrTy.fn (.cons (.var 2) .nil) (.var 3))] =
      .panicCircular 2 (CrTy.fn (.cons (.var 2) .nil) (.var 3)) := rfl

/-! ## Claim C3 (counterexample): collection panics on unbound variables -/

/-- Claim C3 (counterexample): on a `Var` whose name is not in the
default environment, `collect` panics with "Unbound variable: x"
(aborting the process); it does not return a structured
`UnboundVariable(name)` error value — the collector has no error-value
channel at all. -/
theorem collect_unbound_cex :
    collect (.var (.var 0) "x") = .panic "Unbound variable: x" := by decide

/-! ## Claim C5 (counterexample): `compose` is not function composition -/

/-- Claim C5 (counterexample), using the substitutions of the source's
own `composes` test: `S = {3 ↦ t1, 2 ↦ Int, 4 ↦ Fn(t1, t2)}`,
`O = {1 ↦ Int, 2 ↦ Bool}`.  Reading `(σ ∘ τ)` as `S.compose O` with
`σ = self`, `τ = other`: the equation `(σ∘τ)(t) = σ(τ(t))` fails at
`t = t3` (first conjunct).  Reading `σ = other`, `τ = self`: it fails at
`t = t2` (second conjunct).  On the shared key `2` the composed map holds
`other`'s entry `Bool`, not `self`'s (third conjunct) — so under either
reading the claim's conjunction is false. -/
theorem compose_apply_cex :
    Ty.apply (.var 3)
        (Subst.compose [(3, .var 1), (2, .int), (4, .fn (.var 1) (.var 2))]
          [(1, .int), (2, .bool)]) ≠
      Ty.apply (Ty.apply (.var 3) [(1, .int), (2, .bool)])
        [(3, .var 1), (2, .int), (4, .fn (.var 1) (.var 2))] ∧
    Ty.apply (.var 2)
        (Subst.compose [(3, .var 1), (2, .int), (4, .fn (.var 1) (.var 2))]
          [(1, .int), (2, .bool)]) ≠
      Ty.apply (Ty.apply (.var 2) [(3, .var 1), (2, .int), (4, .fn (.var 1) (.var 2))])
        [(1, .int), (2, .bool)] ∧
    Subst.lookupVar
        (Subst.compose [(3, .var 1), (2, .int), (4, .fn (.var 1) (.var 2))]
          [(1, .int), (2, .bool)]) 2 = some .bool := by
  decide

/-! ## Claim C8 (counterexample): ANF normalization is not idempotent on
`is_anf` inputs -/

/-- Claim C8 (counterexample): two expressions that the source's own
`is_anf` accepts but that `normalize_expr` rewrites into trees that are
not α-equivalent to the input.  `(\x -> x) 1` is in ANF (a lambda is an
atomic expression) yet the normalizer let-binds the lambda, changing the
tree shape; `let x = (let y = 1 in y) in x` is in ANF (a let-rhs may be
compound) yet the normalizer reassociates the nested lets. -/
theorem normalize_idempotent_cex :
    (AExpr.app (.var 0) (.lam (.var 1) (.var 2) "x" (.var (.var 3) "x"))
        (.lit (.var 4) (.int 1))).is_anf = true ∧
    alphaEq []
        (AExpr.app (.var 0) (.lam (.var 1) (.var 2) "x" (.var (.var 3) "x"))
          (.lit (.var 4) (.int 1)))
        (normalize_expr
          (AExpr.app (.var 0) (.lam (.var 1) (.var 2) "x" (.var (.var 3) "x"))
            (.lit (.var 4) (.int 1)))) = false ∧
    (AExpr.letE (.var 0) (.var 1) "x"
        (.letE (.var 2) (.var 3) "y" (.lit (.var 4) (.int 1)) (.var (.var 5) "y"))
        (.var (.var 6) "x")).is_anf = true ∧
    alphaEq []
        (AExpr.letE (.var 0) (.var 1) "x"
          (.letE (.var 2) (.var 3) "y" (.lit (.var 4) (.int 1)) (.var (.var 5) "y"))
          (.var (.var 6) "x"))
        (normalize_expr
          (AExpr.letE (.var 0) (.var 1) "x"
            (.letE (.var 2) (.var 3) "y" (.lit (.var 4) (.int 1)) (.var (.var 5) "y"))
            (.var (.var 6) "x"))) = false := by
  refine ⟨?_, by decide, ?_, by decide⟩ <;>
    simp [AExpr.is_anf, AExpr.is_e, AExpr.is_ae]

/-! ## The shape of normalizer output (claims C1, C10, C8) -/

/-- Immediate expressions: literals and variables — what `normalize_name`
passes through unchanged. -/
def AExpr.isImm : AExpr → Bool
  | .lit _ _ | .var _ _ => true
  | _ => false

def AExpr.isLet : AExpr → Bool
  | .letE _ _ _ _ _ => true
  | _ => false

/-- Atomic expressions in the claims' sense (spec §4.F `ae`): literals,
variables and lambdas. -/
def AExpr.isAtomic : AExpr → Bool
  | .lit _ _ | .var _ _ | .lam _ _ _ _ => true
  | _ => false

/-- The exact shape of `normalize_expr` output: every `If` test and every
`App` operand is immediate (a literal or variable), and no let-binding's
value is itself a let (the normalizer floats nested lets outward). -/
def outNorm : AExpr → Bool
  | .lit _ _ | .var _ _ => true
  | .ite _ t a b => t.isImm && outNorm a && outNorm b
  | .letE _ _ _ v b => !v.isLet && outNorm v && outNorm b
  | .lam _ _ _ b => outNorm b
  | .app _ f a => f.isImm && a.isImm

/-- Claim C1's property: every `If` test and both `App` operands are
atomic (literal, variable or lambda), everywhere in the tree; let values
and bodies are unconstrained beyond the recursion. -/
def claimAnf : AExpr → Bool
  | .lit _ _ | .var _ _ => true
  | .ite _ t a b => t.isAtomic && claimAnf t && claimAnf a && claimAnf b
  | .letE _ _ _ v b => claimAnf v && claimAnf b
  | .lam _ _ _ b => claimAnf b
  | .app _ f a => f.isAtomic && a.isAtomic && claimAnf f && claimAnf a

/-- Claim C10's property: every `If` test and both `App` operands are a
literal or a variable — in particular never a lambda — everywhere in the
tree. -/
def immPos : AExpr → Bool
  | .lit _ _ | .var _ _ => true
  | .ite _ t a b => t.isImm && immPos t && immPos a && immPos b
  | .letE _ _ _ v b => immPos v && immPos b
  | .lam _ _ _ b => immPos b
  | .app _ f a => f.isImm && a.isImm && immPos f && immPos a

/-- A continuation is good when it maps non-let output-shaped trees to
output-shaped results — the invariant every continuation the normalizer
builds satisfies (the normalizer never passes a `Let` to a
continuation). -/
def KGood (k : K) : Prop :=
  ∀ m n, outNorm m = true → m.isLet = false → outNorm (k m n).1 = true

/-- A continuation used under `wrapGensym` only ever receives immediates. -/
def KGoodImm (k : K) : Prop :=
  ∀ m n, m.isImm = true → outNorm (k m n).1 = true

theorem outNorm_of_imm : ∀ m : AExpr, m.isImm = true → outNorm m = true
  | .lit _ _, _ => rfl
  | .var _ _, _ => rfl
  | .ite _ _ _ _, h => by simp [AExpr.isImm] at h
  | .letE _ _ _ _ _, h => by simp [AExpr.isImm] at h
  | .lam _ _ _ _, h => by simp [AExpr.isImm] at h
  | .app _ _ _, h => by simp [AExpr.isImm] at h

theorem isLet_false_of_imm : ∀ m : AExpr, m.isImm = true → m.isLet = false
  | .lit _ _, _ => rfl
  | .var _ _, _ => rfl
  | .ite _ _ _ _, h => by simp [AExpr.isImm] at h
  | .letE _ _ _ _ _, h => by simp [AExpr.isImm] at h
  | .lam _ _ _ _, h => by simp [AExpr.isImm] at h
  | .app _ _ _, h => by simp [AExpr.isImm] at h

theorem id_KGood : KGood (fun x m => (x, m)) := fun m _ hm _ => hm

theorem wrapGensym_KGood (k : K) (hk : KGoodImm k) : KGood (wrapGensym k) := by
  intro m n hm hnl
  cases m with
  | lit ty v => exact hk _ _ rfl
  | var ty x => exact hk _ _ rfl
  | ite ty t a b =>
      have hout := hk (.var (AExpr.ite ty t a b).tyA ("$" ++ toString n)) (n + 1) rfl
      show (!(AExpr.ite ty t a b).isLet && outNorm (.ite ty t a b) &&
        outNorm (k (.var (AExpr.ite ty t a b).tyA ("$" ++ toString n)) (n + 1)).1) = true
      rw [hnl, hm, hout]
      rfl
  | letE ty bty bx v b => simp [AExpr.isLet] at hnl
  | lam ty pty pn b =>
      have hout := hk (.var (AExpr.lam ty pty pn b).tyA ("$" ++ toString n)) (n + 1) rfl
      show (!(AExpr.lam ty pty pn b).isLet && outNorm (.lam ty pty pn b) &&
        outNorm (k (.var (AExpr.lam ty pty pn b).tyA ("$" ++ toString n)) (n + 1)).1) = true
      rw [hnl, hm, hout]
      rfl
  | app ty f a =>
      have hout := hk (.var (AExpr.app ty f a).tyA ("$" ++ toString n)) (n + 1) rfl
      show (!(AExpr.app ty f a).isLet && outNorm (.app ty f a) &&
        outNorm (k (.var (AExpr.app ty f a).tyA ("$" ++ toString n)) (n + 1)).1) = true
      rw [hnl, hm, hout]
      rfl

/-- The central invariant: with a good continuation, `normalize` produces
an output-shaped tree. -/
theorem normalize_outNorm : ∀ (e : AExpr) (k : K) (n : Nat), KGood k →
    outNorm (normalize e k n).1 = true
  | .lit ty v, k, n, hk => hk _ _ rfl rfl
  | .var ty x, k, n, hk => hk _ _ rfl rfl
  | .ite ty t tb eb, k, n, hk => by
      apply normalize_outNorm t _ n
      apply wrapGensym_KGood
      intro m n1 hm
      apply hk
      · simp only [outNorm, hm, Bool.true_and, Bool.and_eq_true]
        exact ⟨normalize_outNorm tb _ n1 id_KGood, normalize_outNorm eb _ _ id_KGood⟩
      · rfl
  | .letE ty bty bx bval body, k, n, hk => by
      apply normalize_outNorm bval _ n
      intro m n1 hm hnl
      simp only [outNorm, hnl, Bool.not_false, hm, Bool.true_and]
      exact normalize_outNorm body k n1 hk
  | .lam ty pty px body, k, n, hk => by
      apply hk
      · simpa only [outNorm] using normalize_outNorm body _ n id_KGood
      · rfl
  | .app ty f a, k, n, hk => by
      apply normalize_outNorm f _ n
      apply wrapGensym_KGood
      intro m1 n1 hm1
      apply normalize_outNorm a _ n1
      apply wrapGensym_KGood
      intro m2 n2 hm2
      apply hk
      · simp [outNorm, hm1, hm2]
      · rfl

/-- Every `normalize_expr` output is output-shaped. -/
theorem normalize_expr_outNorm (e : AExpr) : outNorm (normalize_expr e) = true :=
  normalize_outNorm e _ 0 id_KGood

theorem immPos_of_imm : ∀ m : AExpr, m.isImm = true → immPos m = true
  | .lit _ _, _ => rfl
  | .var _ _, _ => rfl
  | .ite _ _ _ _, h => by simp [AExpr.isImm] at h
  | .letE _ _ _ _ _, h => by simp [AExpr.isImm] at h
  | .lam _ _ _ _, h => by simp [AExpr.isImm] at h
  | .app _ _ _, h => by simp [AExpr.isImm] at h

theorem outNorm_imp_immPos : ∀ e : AExpr, outNorm e = true → immPos e = true
  | .lit _ _, _ => rfl
  | .var _ _, _ => rfl
  | .ite _ t a b, h => by
      simp only [outNorm, Bool.and_eq_true] at h
      simp [immPos, h.1.1, immPos_of_imm t h.1.1,
        outNorm_imp_immPos a h.1.2, outNorm_imp_immPos b h.2]
  | .letE _ _ _ v b, h => by
      simp only [outNorm, Bool.and_eq_true] at h
      simp [immPos, outNorm_imp_immPos v h.1.2, outNorm_imp_immPos b h.2]
  | .lam _ _ _ b, h => by
      simp only [outNorm] at h
      simpa [immPos] using outNorm_imp_immPos b h
  | .app _ f a, h => by
      simp only [outNorm, Bool.and_eq_true] at h
      simp [immPos, h.1, h.2, immPos_of_imm f h.1, immPos_of_imm a h.2]

theorem isAtomic_of_imm : ∀ m : AExpr, m.isImm = true → m.isAtomic = true
  | .lit _ _, _ => rfl
  | .var _ _, _ => rfl
  | .ite _ _ _ _, h => by simp [AExpr.isImm] at h
  | .letE _ _ _ _ _, h => by simp [AExpr.isImm] at h
  | .lam _ _ _ _, h => by simp [AExpr.isImm] at h
  | .app _ _ _, h => by simp [AExpr.isImm] at h

theorem immPos_imp_claimAnf : ∀ e : AExpr, immPos e = true → claimAnf e = true
  | .lit _ _, _ => rfl
  | .var _ _, _ => rfl
  | .ite _ t a b, h => by
      simp only [immPos, Bool.and_eq_true] at h
      simp [claimAnf, isAtomic_of_imm t h.1.1.1, immPos_imp_claimAnf t h.1.1.2,
        immPos_imp_claimAnf a h.1.2, immPos_imp_claimAnf b h.2]
  | .letE _ _ _ v b, h => by
      simp only [immPos, Bool.and_eq_true] at h
      simp [claimAnf, immPos_imp_claimAnf v h.1, immPos_imp_claimAnf b h.2]
  | .lam _ _ _ b, h => by
      simp only [immPos] at h
      simpa [claimAnf] using immPos_imp_claimAnf b h
  | .app _ f a, h => by
      simp only [immPos, Bool.and_eq_true] at h
      simp [claimAnf, isAtomic_of_imm f h.1.1.1, isAtomic_of_imm a h.1.1.2,
        immPos_imp_claimAnf f h.1.2, immPos_imp_claimAnf a h.2]

/-- Claim C1: the tree returned by `normalize_expr` is in A-normal form
in the claim's sense — the test of every `If` and the function and
argument of every `App` are atomic (in fact always a literal or
variable), while let values and bodies may remain compound.  Letrec-free
input is inherent here: the embedded expression type is the letrec-free
fragment, which is all the source normalizer accepts (its `Letrec` arm is
`todo!()`). -/
theorem normalize_expr_claim_anf (e : AExpr) : claimAnf (normalize_expr e) = true :=
  immPos_imp_claimAnf _ (outNorm_imp_immPos _ (normalize_expr_outNorm e))

/-- Claim C10: in normalizer output every `If` test and `App` operand is
a literal or a variable — never a lambda (first conjunct); and
`normalize_name` let-binds non-immediate subterms (lambdas included) to
fresh gensym-named variables whose `Let` binder inherits the subterm's
type, as the concrete run on `(\x -> x) (\y -> y)` shows: both lambdas
are bound to `$0`/`$1` with their own types, and the application receives
the variables (second conjunct). -/
theorem normalize_app_if_immediate :
    (∀ e : AExpr, immPos (normalize_expr e) = true) ∧
    normalize_expr (.app (.var 0) (.lam (.var 1) (.var 2) "x" (.var (.var 3) "x"))
        (.lam (.var 4) (.var 5) "y" (.var (.var 6) "y"))) =
      .letE (.var 1) (.var 1) "$0" (.lam (.var 1) (.var 2) "x" (.var (.var 3) "x"))
        (.letE (.var 4) (.var 4) "$1" (.lam (.var 4) (.var 5) "y" (.var (.var 6) "y"))
          (.app (.var 0) (.var (.var 1) "$0") (.var (.var 4) "$1"))) :=
  ⟨fun e => outNorm_imp_immPos _ (normalize_expr_outNorm e), by decide⟩

/-! ## Idempotence on output-shaped trees (claim C8, amended) -/

/-- What `normalize` does to an already-normalized tree: the continuation
is plugged in at the end of the let-spine (and the tree is otherwise
untouched). -/
def plugK : AExpr → K → Nat → AExpr × Nat
  | .letE ty bty bx v body, k, n =>
      let r := plugK body k n
      (.letE ty bty bx v r.1, r.2)
  | .lit ty v, k, n => k (.lit ty v) n
  | .var ty x, k, n => k (.var ty x) n
  | .ite ty t a b, k, n => k (.ite ty t a b) n
  | .lam ty pty pn b, k, n => k (.lam ty pty pn b) n
  | .app ty f a, k, n => k (.app ty f a) n

theorem plugK_not_let (e : AExpr) (k : K) (n : Nat) (h : e.isLet = false) :
    plugK e k n = k e n := by
  cases e <;> first
    | rfl
    | simp [AExpr.isLet] at h

theorem plugK_id : ∀ (e : AExpr) (n : Nat), plugK e (fun x m => (x, m)) n = (e, n)
  | .letE ty bty bx v body, n => by simp [plugK, plugK_id body n]
  | .lit _ _, _ => rfl
  | .var _ _, _ => rfl
  | .ite _ _ _ _, _ => rfl
  | .lam _ _ _ _, _ => rfl
  | .app _ _ _, _ => rfl

theorem normalize_plug : ∀ (e : AExpr) (k : K) (n : Nat), outNorm e = true →
    normalize e k n = plugK e k n
  | .lit _ _, _, _, _ => rfl
  | .var _ _, _, _, _ => rfl
  | .ite ty t tb eb, k, n, h => by
      simp only [outNorm, Bool.and_eq_true] at h
      obtain ⟨⟨ht, ha⟩, hb⟩ := h
      cases t with
      | lit tt vv =>
          show (let r2 := normalize tb (fun x m => (x, m)) n
                let r3 := normalize eb (fun x m => (x, m)) r2.2
                k (.ite ty (.lit tt vv) r2.1 r3.1) r3.2) = _
          rw [normalize_plug tb _ n ha, plugK_id]
          show (let r3 := normalize eb (fun x m => (x, m)) n
                k (.ite ty (.lit tt vv) tb r3.1) r3.2) = _
          rw [normalize_plug eb _ n hb, plugK_id]
          rfl
      | var tt vv =>
          show (let r2 := normalize tb (fun x m => (x, m)) n
                let r3 := normalize eb (fun x m => (x, m)) r2.2
                k (.ite ty (.var tt vv) r2.1 r3.1) r3.2) = _
          rw [normalize_plug tb _ n ha, plugK_id]
          show (let r3 := normalize eb (fun x m => (x, m)) n
                k (.ite ty (.var tt vv) tb r3.1) r3.2) = _
          rw [normalize_plug eb _ n hb, plugK_id]
          rfl
      | ite _ _ _ _ => simp [AExpr.isImm] at ht
      | letE _ _ _ _ _ => simp [AExpr.isImm] at ht
      | lam _ _ _ _ => simp [AExpr.isImm] at ht
      | app _ _ _ => simp [AExpr.isImm] at ht
  | .letE ty bty bx bval body, k, n, h => by
      simp only [outNorm, Bool.and_eq_true, Bool.not_eq_true'] at h
      obtain ⟨⟨hnl, hv⟩, hb⟩ := h
      show normalize bval _ n = _
      rw [normalize_plug bval _ n hv, plugK_not_let bval _ n hnl]
      show (let r := normalize body k n
            (AExpr.letE ty bty bx bval r.1, r.2)) = _
      rw [normalize_plug body k n hb]
      rfl
  | .lam ty pty px body, k, n, h => by
      show (let r := normalize body (fun x m => (x, m)) n
            k (.lam ty pty px r.1) r.2) = _
      rw [normalize_plug body _ n (by simpa [outNorm] using h), plugK_id]
      rfl
  | .app ty f a, k, n, h => by
      simp only [outNorm, Bool.and_eq_true] at h
      obtain ⟨hf, ha⟩ := h
      cases f <;> try simp [AExpr.isImm] at hf
      all_goals cases a <;> try simp [AExpr.isImm] at ha
      all_goals rfl

/-- Claim C8 (amended): normalization is idempotent on trees in the
normalizer's *output* shape — every `If` test and `App` operand a literal
or variable, no let value itself a let — and on those it returns the
input bit-identically, hence α-equivalent (first conjunct).
Consequently re-normalizing any normalizer output is the identity (second
conjunct).  On the source's broader `is_anf` inputs (which admit lambdas
in atomic positions and lets nested in let values) idempotence fails, as
the counterexample shows. -/
theorem normalize_idempotent_amended :
    (∀ e : AExpr, outNorm e = true → normalize_expr e = e) ∧
    (∀ e : AExpr, normalize_expr (normalize_expr e) = normalize_expr e) := by
  have h1 : ∀ e : AExpr, outNorm e = true → normalize_expr e = e := by
    intro e h
    show (normalize e _ 0).1 = e
    rw [normalize_plug e _ 0 h, plugK_id]
  exact ⟨h1, fun e => h1 _ (normalize_expr_outNorm e)⟩

/-- Witness for `normalize_idempotent_amended` at a concrete
output-shaped tree (`let x = f 1 in x` with immediate operands). -/
theorem normalize_idempotent_amended_witness :
    outNorm (AExpr.letE (.var 0) (.var 1) "x"
        (.app (.var 2) (.var (.var 3) "f") (.lit (.var 4) (.int 1)))
        (.var (.var 5) "x")) = true ∧
    normalize_expr (AExpr.letE (.var 0) (.var 1) "x"
        (.app (.var 2) (.var (.var 3) "f") (.lit (.var 4) (.int 1)))
        (.var (.var 5) "x")) =
      AExpr.letE (.var 0) (.var 1) "x"
        (.app (.var 2) (.var (.var 3) "f") (.lit (.var 4) (.int 1)))
        (.var (.var 5) "x") :=
  ⟨by decide, normalize_idempotent_amended.1 _ (by decide)⟩

/-! ## Closure-conversion soundness (claim C2) -/

theorem CSubst.mem_of_lookupC : ∀ (s : CSubst) (x : String) (c : CExpr),
    CSubst.lookupC s x = some c → (x, c) ∈ s := by
  intro s x c h
  induction s with
  | nil => cases h
  | cons q rest ih =>
    by_cases hq : q.1 = x
    · simp only [CSubst.lookupC, hq, if_true, Option.some.injEq] at h
      subst h
      rw [← hq]
      exact List.mem_cons_self q rest
    · simp only [CSubst.lookupC, hq, if_false] at h
      exact List.mem_cons_of_mem q (ih h)

theorem envSubst_range_no_var (fvs : FreeVars) :
    ∀ p ∈ envSubst fvs, ∀ s, (p.2 : CExpr).containsVar s = false := by
  intro p hp s
  obtain ⟨q, _, rfl⟩ := List.mem_map.mp hp
  rfl

theorem envSubst_range_sound (fvs : FreeVars) :
    ∀ p ∈ envSubst fvs, (p.2 : CExpr).closureSound = true := by
  intro p hp
  obtain ⟨q, _, rfl⟩ := List.mem_map.mp hp
  rfl

theorem envSubst_hasKey (fvs : FreeVars) (p : String × Ty) (hp : p ∈ fvs) :
    CSubst.hasKeyC (envSubst fvs) p.1 = true := by
  induction fvs with
  | nil => cases hp
  | cons q rest ih =>
    rcases List.mem_cons.mp hp with h | h
    · subst h
      simp [envSubst, CSubst.hasKeyC, CSubst.lookupC]
    · by_cases hq : q.1 = p.1
      · simp [envSubst, CSubst.hasKeyC, CSubst.lookupC, hq]
      · have := ih h
        simp only [envSubst, CSubst.hasKeyC, CSubst.lookupC, List.map_cons, hq,
          if_false] at this ⊢
        exact this

mutual
/-- After `substitute`, no `Var` named `s` remains anywhere in the tree,
provided either `s` is in the substitution's domain (every such `Var` is
replaced, at every depth — `substitute` descends into nested closures) or
no such `Var` was present; the ranges must be `Var`-free in `s`. -/
theorem substitute_not_containsVar : ∀ (c : CExpr) (subst : CSubst) (s : String),
    (CSubst.hasKeyC subst s = true ∨ c.containsVar s = false) →
    (∀ p ∈ subst, (p.2 : CExpr).containsVar s = false) →
    ((c.substitute subst).containsVar s) = false
  | .lit _ _, _, _, _, _ => rfl
  | .envRef _ _, _, _, _, _ => rfl
  | .var ty name, subst, s, hd, hr => by
      cases hlook : CSubst.lookupC subst name with
      | some c2 =>
        simp only [CExpr.substitute, hlook]
        exact hr _ (CSubst.mem_of_lookupC subst name c2 hlook)
      | none =>
        simp only [CExpr.substitute, hlook, CExpr.containsVar]
        rcases hd with hd | hd
        · simp only [decide_eq_false_iff_not]
          intro hns
          subst hns
          simp [CSubst.hasKeyC, hlook] at hd
        · simpa [CExpr.containsVar] using hd
  | .ite ty t a b, subst, s, hd, hr => by
      have hds : ∀ x : CExpr, (CExpr.ite ty t a b).containsVar s = false →
          x.containsVar s = false ∨ True := fun _ _ => Or.inr trivial
      have hd3 : (CSubst.hasKeyC subst s = true ∨ t.containsVar s = false) ∧
          (CSubst.hasKeyC subst s = true ∨ a.containsVar s = false) ∧
          (CSubst.hasKeyC subst s = true ∨ b.containsVar s = false) := by
        rcases hd with hd | hd
        · exact ⟨Or.inl hd, Or.inl hd, Or.inl hd⟩
        · simp only [CExpr.containsVar, Bool.or_eq_false_iff] at hd
          exact ⟨Or.inr hd.1.1, Or.inr hd.1.2, Or.inr hd.2⟩
      simp [CExpr.substitute, CExpr.containsVar,
        substitute_not_containsVar t subst s hd3.1 hr,
        substitute_not_containsVar a subst s hd3.2.1 hr,
        substitute_not_containsVar b subst s hd3.2.2 hr]
  | .letE ty bty bn bv body, subst, s, hd, hr => by
      have hd2 : (CSubst.hasKeyC subst s = true ∨ bv.containsVar s = false) ∧
          (CSubst.hasKeyC subst s = true ∨ body.containsVar s = false) := by
        rcases hd with hd | hd
        · exact ⟨Or.inl hd, Or.inl hd⟩
        · simp only [CExpr.containsVar, Bool.or_eq_false_iff] at hd
          exact ⟨Or.inr hd.1, Or.inr hd.2⟩
      simp [CExpr.substitute, CExpr.containsVar,
        substitute_not_containsVar bv subst s hd2.1 hr,
        substitute_not_containsVar body subst s hd2.2 hr]
  | .letrec ty bs body, subst, s, hd, hr => by
      have hd2 : (CSubst.hasKeyC subst s = true ∨ bs.containsVar s = false) ∧
          (CSubst.hasKeyC subst s = true ∨ body.containsVar s = false) := by
        rcases hd with hd | hd
        · exact ⟨Or.inl hd, Or.inl hd⟩
        · simp only [CExpr.containsVar, Bool.or_eq_false_iff] at hd
          exact ⟨Or.inr hd.1, Or.inr hd.2⟩
      simp [CExpr.substitute, CExpr.containsVar,
        substituteB_not_containsVar bs subst s hd2.1 hr,
        substitute_not_containsVar body subst s hd2.2 hr]
  | .mkClosure ty pty pn pa fvs body, subst, s, hd, hr => by
      have hd2 : CSubst.hasKeyC subst s = true ∨ body.containsVar s = false := by
        rcases hd with hd | hd
        · exact Or.inl hd
        · simpa only [CExpr.containsVar] using Or.inr hd
      simp [CExpr.substitute, CExpr.containsVar,
        substitute_not_containsVar body subst s hd2 hr]
  | .app ty f a, subst, s, hd, hr => by
      have hd2 : (CSubst.hasKeyC subst s = true ∨ f.containsVar s = false) ∧
          (CSubst.hasKeyC subst s = true ∨ a.containsVar s = false) := by
        rcases hd with hd | hd
        · exact ⟨Or.inl hd, Or.inl hd⟩
        · simp only [CExpr.containsVar, Bool.or_eq_false_iff] at hd
          exact ⟨Or.inr hd.1, Or.inr hd.2⟩
      simp [CExpr.substitute, CExpr.containsVar,
        substitute_not_containsVar f subst s hd2.1 hr,
        substitute_not_containsVar a subst s hd2.2 hr]

theorem substituteB_not_containsVar : ∀ (bs : CBinds) (subst : CSubst) (s : String),
    (CSubst.hasKeyC subst s = true ∨ bs.containsVar s = false) →
    (∀ p ∈ subst, (p.2 : CExpr).containsVar s = false) →
    ((bs.substitute subst).containsVar s) = false
  | .nil, _, _, _, _ => rfl
  | .cons bty bn bv rest, subst, s, hd, hr => by
      have hd2 : (CSubst.hasKeyC subst s = true ∨ bv.containsVar s = false) ∧
          (CSubst.hasKeyC subst s = true ∨ rest.containsVar s = false) := by
        rcases hd with hd | hd
        · exact ⟨Or.inl hd, Or.inl hd⟩
        · simp only [CBinds.containsVar, Bool.or_eq_false_iff] at hd
          exact ⟨Or.inr hd.1, Or.inr hd.2⟩
      simp [CBinds.substitute, CBinds.containsVar,
        substitute_not_containsVar bv subst s hd2.1 hr,
        substituteB_not_containsVar rest subst s hd2.2 hr]
end

mutual
/-- `substitute` preserves the soundness predicate when every range of
the substitution is itself sound and `Var`-free (as the converter's
`Var`-to-`EnvRef` maps are). -/
theorem substitute_closureSound : ∀ (c : CExpr) (subst : CSubst),
    c.closureSound = true →
    (∀ p ∈ subst, (p.2 : CExpr).closureSound = true) →
    (∀ p ∈ subst, ∀ s, (p.2 : CExpr).containsVar s = false) →
    (c.substitute subst).closureSound = true
  | .lit _ _, _, _, _, _ => rfl
  | .envRef _ _, _, _, _, _ => rfl
  | .var ty name, subst, _, hs, _ => by
      cases hlook : CSubst.lookupC subst name with
      | some c2 =>
        simp only [CExpr.substitute, hlook]
        exact hs _ (CSubst.mem_of_lookupC subst name c2 hlook)
      | none => simp [CExpr.substitute, hlook, CExpr.closureSound]
  | .ite ty t a b, subst, hc, hs, hr => by
      simp only [CExpr.closureSound, Bool.and_eq_true] at hc
      simp [CExpr.substitute, CExpr.closureSound,
        substitute_closureSound t subst hc.1.1 hs hr,
        substitute_closureSound a subst hc.1.2 hs hr,
        substitute_closureSound b subst hc.2 hs hr]
  | .letE ty bty bn bv body, subst, hc, hs, hr => by
      simp only [CExpr.closureSound, Bool.and_eq_true] at hc
      simp [CExpr.substitute, CExpr.closureSound,
        substitute_closureSound bv subst hc.1 hs hr,
        substitute_closureSound body subst hc.2 hs hr]
  | .letrec ty bs body, subst, hc, hs, hr => by
      simp only [CExpr.closureSound, Bool.and_eq_true] at hc
      simp [CExpr.substitute, CExpr.closureSound,
        substituteB_closureSound bs subst hc.1 hs hr,
        substitute_closureSound body subst hc.2 hs hr]
  | .mkClosure ty pty pn pa fvs body, subst, hc, hs, hr => by
      simp only [CExpr.closureSound, Bool.and_eq_true, List.all_eq_true] at hc
      simp only [CExpr.substitute, CExpr.closureSound, Bool.and_eq_true,
        List.all_eq_true]
      constructor
      · intro p hp
        have hbody : body.containsVar p.1 = false := by
          have := hc.1 p hp
          simpa using this
        have := substitute_not_containsVar body subst p.1 (Or.inr hbody)
          (fun q hq => hr q hq p.1)
        simpa using this
      · exact substitute_closureSound body subst hc.2 hs hr
  | .app ty f a, subst, hc, hs, hr => by
      simp only [CExpr.closureSound, Bool.and_eq_true] at hc
      simp [CExpr.substitute, CExpr.closureSound,
        substitute_closureSound f subst hc.1 hs hr,
        substitute_closureSound a subst hc.2 hs hr]

theorem substituteB_closureSound : ∀ (bs : CBinds) (subst : CSubst),
    bs.closureSound = true →
    (∀ p ∈ subst, (p.2 : CExpr).closureSound = true) →
    (∀ p ∈ subst, ∀ s, (p.2 : CExpr).containsVar s = false) →
    (bs.substitute subst).closureSound = true
  | .nil, _, _, _, _ => rfl
  | .cons bty bn bv rest, subst, hc, hs, hr => by
      simp only [CBinds.closureSound, Bool.and_eq_true] at hc
      simp [CBinds.substitute, CBinds.closureSound,
        substitute_closureSound bv subst hc.1 hs hr,
        substituteB_closureSound rest subst hc.2 hs hr]
end

mutual
theorem convert_closureSound : ∀ e : HExpr, (convert e).closureSound = true
  | .lit _ _ => rfl
  | .var _ _ => rfl
  | .ite ty t a b => by
      simp [convert, CExpr.closureSound, convert_closureSound t,
        convert_closureSound a, convert_closureSound b]
  | .letE ty bty bn ba bv body => by
      simp [convert, CExpr.closureSound, convert_closureSound bv,
        convert_closureSound body]
  | .letrec ty bs body => by
      simp [convert, CExpr.closureSound, convertBinds_closureSound bs,
        convert_closureSound body]
  | .lam ty pty pname pann body => by
      simp only [convert, CExpr.closureSound, Bool.and_eq_true, List.all_eq_true]
      constructor
      · intro p hp
        have := substitute_not_containsVar (convert body)
          (envSubst (free_vars (.lam ty pty pname pann body))) p.1
          (Or.inl (envSubst_hasKey _ p hp))
          (fun q hq => envSubst_range_no_var _ q hq p.1)
        simpa using this
      · exact substitute_closureSound (convert body) _
          (convert_closureSound body)
          (envSubst_range_sound _)
          (envSubst_range_no_var _)
  | .app ty f a => by
      simp [convert, CExpr.closureSound, convert_closureSound f,
        convert_closureSound a]

theorem convertBinds_closureSound : ∀ bs : HBinds, (convertBinds bs).closureSound = true
  | .nil => rfl
  | .cons bty bn ba bv rest => by
      simp [convertBinds, CBinds.closureSound, convert_closureSound bv,
        convertBinds_closureSound rest]
end

/-- Claim C2: in the output of closure conversion, the body of every
`MkClosure` — at any depth — contains no `Var` node whose name is listed
in that closure's `free_vars` map: every captured reference was rewritten
to `EnvRef`.  The theorem holds for *all* inputs, not only ANF-normalized
alpha-renamed ones, because `substitute` descends into nested closures
and so rewrites every captured `Var` at every depth. -/
theorem closure_conversion_sound (e : HExpr) : (convert e).closureSound = true :=
  convert_closureSound e

/-! ## Unbound variables and collection panics (claim C3) -/

theorem CollectRes.ok_append_ok (c d : List Constraint) :
    (CollectRes.ok c).append (.ok d) = .ok (c ++ d) := rfl

theorem CollectRes.ok_append_panic (c : List Constraint) (m : String) :
    (CollectRes.ok c).append (.panic m) = .panic m := rfl

theorem CollectRes.panic_append (m : String) (r : CollectRes) :
    (CollectRes.panic m).append r = .panic m := rfl

def HBinds.nonEmpty : HBinds → Bool
  | .nil => false
  | .cons _ _ _ _ _ => true

mutual
/-- Whether the tree contains a `Var` unbound in the environment at its
use site, threading the environment exactly as `collect_inner` does. -/
def unboundIn : HExpr → TEnv → Bool
  | .lit _ _, _ => false
  | .var _ name, env => (env.get name).isNone
  | .ite _ t a b, env => unboundIn t env || unboundIn a env || unboundIn b env
  | .letE _ bty bn _ bv body, env =>
      unboundIn bv env || unboundIn body (env.insert bn bty)
  | .letrec _ bs body, env =>
      unboundVals bs (bs.extendEnv env) || unboundIn body (bs.extendEnv env)
  | .lam _ pty pn _ body, env => unboundIn body (env.insert pn pty)
  | .app _ f a, env => unboundIn f env || unboundIn a env

def unboundVals : HBinds → TEnv → Bool
  | .nil, _ => false
  | .cons _ _ _ bv rest, env => unboundIn bv env || unboundVals rest env
end

mutual
/-- No `Letrec` in the tree has an empty binding list (the source
`assert!`s this). -/
def wfLetrec : HExpr → Bool
  | .lit _ _ | .var _ _ => true
  | .ite _ t a b => wfLetrec t && wfLetrec a && wfLetrec b
  | .letE _ _ _ _ bv body => wfLetrec bv && wfLetrec body
  | .letrec _ bs body => bs.nonEmpty && wfLetrecB bs && wfLetrec body
  | .lam _ _ _ _ body => wfLetrec body
  | .app _ f a => wfLetrec f && wfLetrec a

def wfLetrecB : HBinds → Bool
  | .nil => true
  | .cons _ _ _ bv rest => wfLetrec bv && wfLetrecB rest
end

mutual
theorem collect_ok : ∀ (e : HExpr) (env : TEnv), wfLetrec e = true →
    unboundIn e env = false → ∃ cs, collect_inner e env = .ok cs
  | .lit ty v, env, _, _ => ⟨_, rfl⟩
  | .var ty name, env, _, hu => by
      simp only [unboundIn, Option.isNone_eq_false_iff, Option.isSome_iff_exists] at hu
      obtain ⟨ty2, hty2⟩ := hu
      exact ⟨_, by simp only [collect_inner, hty2]; rfl⟩
  | .ite ty t a b, env, hwf, hu => by
      simp only [wfLetrec, Bool.and_eq_true] at hwf
      simp only [unboundIn, Bool.or_eq_false_iff] at hu
      obtain ⟨c1, h1⟩ := collect_ok t env hwf.1.1 hu.1.1
      obtain ⟨c2, h2⟩ := collect_ok a env hwf.1.2 hu.1.2
      obtain ⟨c3, h3⟩ := collect_ok b env hwf.2 hu.2
      exact ⟨_, by simp only [collect_inner, h1, h2, h3, CollectRes.append]; rfl⟩
  | .letE ty bty bn ba bv body, env, hwf, hu => by
      simp only [wfLetrec, Bool.and_eq_true] at hwf
      simp only [unboundIn, Bool.or_eq_false_iff] at hu
      obtain ⟨c1, h1⟩ := collect_ok bv env hwf.1 hu.1
      obtain ⟨c2, h2⟩ := collect_ok body (env.insert bn bty) hwf.2 hu.2
      exact ⟨_, by simp only [collect_inner, h1, h2, CollectRes.append]; rfl⟩
  | .letrec ty bs body, env, hwf, hu => by
      simp only [wfLetrec, Bool.and_eq_true] at hwf
      simp only [unboundIn, Bool.or_eq_false_iff] at hu
      obtain ⟨c1, h1⟩ := collect_vals_ok bs (bs.extendEnv env) hwf.1.2 hu.1
      obtain ⟨c2, h2⟩ := collect_ok body (bs.extendEnv env) hwf.2 hu.2
      cases bs with
      | nil => cases hwf.1.1
      | cons b1ty b1n b1a b1v rest =>
        exact ⟨_, by simp only [collect_inner, h1, h2, CollectRes.append]; rfl⟩
  | .lam ty pty pn pa body, env, hwf, hu => by
      obtain ⟨c1, h1⟩ := collect_ok body (env.insert pn pty) hwf (by simpa [unboundIn] using hu)
      exact ⟨_, by simp only [collect_inner, h1, CollectRes.append]; rfl⟩
  | .app ty f a, env, hwf, hu => by
      simp only [wfLetrec, Bool.and_eq_true] at hwf
      simp only [unboundIn, Bool.or_eq_false_iff] at hu
      obtain ⟨c1, h1⟩ := collect_ok f env hwf.1 hu.1
      obtain ⟨c2, h2⟩ := collect_ok a env hwf.2 hu.2
      exact ⟨_, by simp only [collect_inner, h1, h2, CollectRes.append]; rfl⟩

theorem collect_vals_ok : ∀ (bs : HBinds) (env : TEnv), wfLetrecB bs = true →
    unboundVals bs env = false → ∃ cs, collect_vals bs env = .ok cs
  | .nil, env, _, _ => ⟨_, rfl⟩
  | .cons bty bn ba bv rest, env, hwf, hu => by
      simp only [wfLetrecB, Bool.and_eq_true] at hwf
      simp only [unboundVals, Bool.or_eq_false_iff] at hu
      obtain ⟨c1, h1⟩ := collect_ok bv env hwf.1 hu.1
      obtain ⟨c2, h2⟩ := collect_vals_ok rest env hwf.2 hu.2
      exact ⟨_, by simp only [collect_vals, h1, h2, CollectRes.append]; rfl⟩
end

mutual
theorem collect_panic : ∀ (e : HExpr) (env : TEnv), wfLetrec e = true →
    unboundIn e env = true →
    ∃ n, collect_inner e env = .panic ("Unbound variable: " ++ n)
  | .lit ty v, env, _, hu => by simp [unboundIn] at hu
  | .var ty name, env, _, hu => by
      simp only [unboundIn, Option.isNone_iff_eq_none] at hu
      exact ⟨name, by simp [collect_inner, hu]⟩
  | .ite ty t a b, env, hwf, hu => by
      simp only [wfLetrec, Bool.and_eq_true] at hwf
      by_cases h1 : unboundIn t env = true
      · obtain ⟨n, hn⟩ := collect_panic t env hwf.1.1 h1
        exact ⟨n, by simp [collect_inner, hn, CollectRes.append]⟩
      · obtain ⟨c1, hc1⟩ := collect_ok t env hwf.1.1 (Bool.eq_false_iff.mpr h1)
        by_cases h2 : unboundIn a env = true
        · obtain ⟨n, hn⟩ := collect_panic a env hwf.1.2 h2
          exact ⟨n, by simp [collect_inner, hc1, hn, CollectRes.append]⟩
        · obtain ⟨c2, hc2⟩ := collect_ok a env hwf.1.2 (Bool.eq_false_iff.mpr h2)
          have h3 : unboundIn b env = true := by
            simp only [unboundIn, Bool.or_eq_true] at hu
            rcases hu with (hu | hu) | hu
            · exact absurd hu h1
            · exact absurd hu h2
            · exact hu
          obtain ⟨n, hn⟩ := collect_panic b env hwf.2 h3
          exact ⟨n, by simp [collect_inner, hc1, hc2, hn, CollectRes.append]⟩
  | .letE ty bty bn ba bv body, env, hwf, hu => by
      simp only [wfLetrec, Bool.and_eq_true] at hwf
      by_cases h1 : unboundIn bv env = true
      · obtain ⟨n, hn⟩ := collect_panic bv env hwf.1 h1
        exact ⟨n, by simp [collect_inner, hn, CollectRes.append]⟩
      · obtain ⟨c1, hc1⟩ := collect_ok bv env hwf.1 (Bool.eq_false_iff.mpr h1)
        have h2 : unboundIn body (env.insert bn bty) = true := by
          simp only [unboundIn, Bool.or_eq_true] at hu
          rcases hu with hu | hu
          · exact absurd hu h1
          · exact hu
        obtain ⟨n, hn⟩ := collect_panic body (env.insert bn bty) hwf.2 h2
        exact ⟨n, by simp [collect_inner, hc1, hn, CollectRes.append]⟩
  | .letrec ty bs body, env, hwf, hu => by
      simp only [wfLetrec, Bool.and_eq_true] at hwf
      by_cases h1 : unboundVals bs (bs.extendEnv env) = true
      · obtain ⟨n, hn⟩ := collect_vals_panic bs (bs.extendEnv env) hwf.1.2 h1
        cases bs with
        | nil => cases hwf.1.1
        | cons b1ty b1n b1a b1v rest =>
          exact ⟨n, by simp [collect_inner, hn, CollectRes.append]⟩
      · obtain ⟨c1, hc1⟩ := collect_vals_ok bs (bs.extendEnv env) hwf.1.2
          (Bool.eq_false_iff.mpr h1)
        have h2 : unboundIn body (bs.extendEnv env) = true := by
          simp only [unboundIn, Bool.or_eq_true] at hu
          rcases hu with hu | hu
          · exact absurd hu h1
          · exact hu
        obtain ⟨n, hn⟩ := collect_panic body (bs.extendEnv env) hwf.2 h2
        cases bs with
        | nil => cases hwf.1.1
        | cons b1ty b1n b1a b1v rest =>
          exact ⟨n, by simp [collect_inner, hc1, hn, CollectRes.append]⟩
  | .lam ty pty pn pa body, env, hwf, hu => by
      obtain ⟨n, hn⟩ := collect_panic body (env.insert pn pty) hwf
        (by simpa [unboundIn] using hu)
      exact ⟨n, by simp [collect_inner, hn, CollectRes.append]⟩
  | .app ty f a, env, hwf, hu => by
      simp only [wfLetrec, Bool.and_eq_true] at hwf
      by_cases h1 : unboundIn f env = true
      · obtain ⟨n, hn⟩ := collect_panic f env hwf.1 h1
        exact ⟨n, by simp [collect_inner, hn, CollectRes.append]⟩
      · obtain ⟨c1, hc1⟩ := collect_ok f env hwf.1 (Bool.eq_false_iff.mpr h1)
        have h2 : unboundIn a env = true := by
          simp only [unboundIn, Bool.or_eq_true] at hu
          rcases hu with hu | hu
          · exact absurd hu h1
          · exact hu
        obtain ⟨n, hn⟩ := collect_panic a env hwf.2 h2
        exact ⟨n, by simp [collect_inner, hc1, hn, CollectRes.append]⟩

theorem collect_vals_panic : ∀ (bs : HBinds) (env : TEnv), wfLetrecB bs = true →
    unboundVals bs env = true →
    ∃ n, collect_vals bs env = .panic ("Unbound variable: " ++ n)
  | .nil, env, _, hu => by simp [unboundVals] at hu
  | .cons bty bn ba bv rest, env, hwf, hu => by
      simp only [wfLetrecB, Bool.and_eq_true] at hwf
      by_cases h1 : unboundIn bv env = true
      · obtain ⟨n, hn⟩ := collect_panic bv env hwf.1 h1
        exact ⟨n, by simp [collect_vals, hn, CollectRes.append]⟩
      · obtain ⟨c1, hc1⟩ := collect_ok bv env hwf.1 (Bool.eq_false_iff.mpr h1)
        have h2 : unboundVals rest env = true := by
          simp only [unboundVals, Bool.or_eq_true] at hu
          rcases hu with hu | hu
          · exact absurd hu h1
          · exact hu
        obtain ⟨n, hn⟩ := collect_vals_panic rest env hwf.2 h2
        exact ⟨n, by simp [collect_vals, hc1, hn, CollectRes.append]⟩
end

/-- Claim C3 (amended): constraint collection has no error-value channel;
it either completes with the constraint list or aborts the process with a
`panic!`.  On every tree containing a `Var` whose name is not in the
environment at the use site (letrecs nonempty, so the source's assertion
does not fire first), the result is precisely an
"Unbound variable: {name}" panic; with every `Var` bound it completes. -/
theorem collect_unbound_amended (e : HExpr) (env : TEnv) (hwf : wfLetrec e = true) :
    (unboundIn e env = true →
      ∃ n, collect_inner e env = .panic ("Unbound variable: " ++ n)) ∧
    (unboundIn e env = false → ∃ cs, collect_inner e env = .ok cs) :=
  ⟨collect_panic e env hwf, collect_ok e env hwf⟩

/-- Witness for `collect_unbound_amended` on `Var "zzz"` under the
default environment. -/
theorem collect_unbound_amended_witness :
    wfLetrec (.var (.var 0) "zzz") = true ∧
    unboundIn (.var (.var 0) "zzz") TEnv.default = true ∧
    ∃ n, collect_inner (.var (.var 0) "zzz") TEnv.default =
      .panic ("Unbound variable: " ++ n) :=
  ⟨rfl, by decide,
    (collect_unbound_amended (.var (.var 0) "zzz") TEnv.default rfl).1 (by decide)⟩

/-! ## Substitution algebra (claims C5 and C6)

The entry-order fold `Type::apply` agrees with simultaneous substitution
on substitutions satisfying the unifier's invariant, making it
independent of the `HashMap` iteration order. -/

theorem Ty.occurs_replace_self (v : Nat) (r : Ty) (hr : Ty.occurs v r = false) :
    ∀ t : Ty, Ty.occurs v (Subst.replace t v r) = false
  | .int => rfl
  | .bool => rfl
  | .float => rfl
  | .var w => by
      by_cases h : v = w
      · subst h
        simp [Subst.replace, hr]
      · simp [Subst.replace, h, Ty.occurs]
        exact fun hc => h hc.symm
  | .fn a b => by
      simp [Subst.replace, Ty.occurs, Ty.occurs_replace_self v r hr a,
        Ty.occurs_replace_self v r hr b]

theorem Ty.occurs_replace_sub (w v : Nat) (r : Ty) :
    ∀ t : Ty, Ty.occurs w (Subst.replace t v r) = true →
      Ty.occurs w t = true ∨ Ty.occurs w r = true
  | .int, h => by simp [Subst.replace, Ty.occurs] at h
  | .bool, h => by simp [Subst.replace, Ty.occurs] at h
  | .float, h => by simp [Subst.replace, Ty.occurs] at h
  | .var u, h => by
      by_cases hv : v = u
      · simp only [Subst.replace, hv, if_true] at h
        exact Or.inr h
      · simp only [Subst.replace, hv, if_false] at h
        exact Or.inl h
  | .fn a b, h => by
      simp only [Subst.replace, Ty.occurs, Bool.or_eq_true] at h ⊢
      rcases h with h | h
      · rcases Ty.occurs_replace_sub w v r a h with h2 | h2
        · exact Or.inl (Or.inl h2)
        · exact Or.inr h2
      · rcases Ty.occurs_replace_sub w v r b h with h2 | h2
        · exact Or.inl (Or.inr h2)
        · exact Or.inr h2

theorem Subst.lookupVar_isSome_iff (s : Subst) (v : Nat) :
    (Subst.lookupVar s v).isSome = true ↔ Subst.inDom s v := by
  induction s with
  | nil =>
    simp [Subst.lookupVar, Subst.inDom]
  | cons q rest ih =>
    by_cases hq : q.1 = v
    · constructor
      · intro _
        exact ⟨q, List.mem_cons_self q rest, hq⟩
      · intro _
        simp [Subst.lookupVar, hq]
    · simp only [Subst.lookupVar, hq, if_false]
      rw [ih]
      constructor
      · rintro ⟨p, hp, hpv⟩
        exact ⟨p, List.mem_cons_of_mem q hp, hpv⟩
      · rintro ⟨p, hp, hpv⟩
        rcases List.mem_cons.mp hp with h | h
        · subst h
          exact absurd hpv hq
        · exact ⟨p, h, hpv⟩

theorem Subst.lookupVar_none_iff (s : Subst) (v : Nat) :
    Subst.lookupVar s v = none ↔ ¬ Subst.inDom s v := by
  rw [← Subst.lookupVar_isSome_iff]
  cases Subst.lookupVar s v <;> simp

theorem Subst.mem_of_lookupVar (s : Subst) (v : Nat) (t : Ty)
    (h : Subst.lookupVar s v = some t) : (v, t) ∈ s := by
  induction s with
  | nil => cases h
  | cons q rest ih =>
    by_cases hq : q.1 = v
    · simp only [Subst.lookupVar, hq, if_true, Option.some.injEq] at h
      subst h
      rw [← hq]
      exact List.mem_cons_self q rest
    · simp only [Subst.lookupVar, hq, if_false] at h
      exact List.mem_cons_of_mem q (ih h)

theorem Subst.Inv.tail (q : Nat × Ty) (s : Subst) (h : Subst.Inv (q :: s)) :
    Subst.Inv s := by
  refine ⟨(List.nodup_cons.mp h.nodup).2, ?_⟩
  intro q2 hq2 p hp
  exact h.noKeyInRange q2 (List.mem_cons_of_mem q hq2) p (List.mem_cons_of_mem q hp)

theorem Ty.applySim_id (s : Subst) :
    ∀ t : Ty, (∀ w, Subst.inDom s w → Ty.occurs w t = false) → Ty.applySim s t = t
  | .int, _ => rfl
  | .bool, _ => rfl
  | .float, _ => rfl
  | .var u, h => by
      cases hl : Subst.lookupVar s u with
      | none => simp [Ty.applySim, hl]
      | some r =>
        have hdom : Subst.inDom s u :=
          (Subst.lookupVar_isSome_iff s u).mp (by simp [hl])
        have := h u hdom
        simp [Ty.occurs] at this
  | .fn a b, h => by
      have ha := Ty.applySim_id s a fun w hw => by
        have := h w hw
        simp only [Ty.occurs, Bool.or_eq_false_iff] at this
        exact this.1
      have hb := Ty.applySim_id s b fun w hw => by
        have := h w hw
        simp only [Ty.occurs, Bool.or_eq_false_iff] at this
        exact this.2
      simp [Ty.applySim, ha, hb]

theorem Ty.applySim_cons (v : Nat) (r : Ty) (rest : Subst)
    (hinv : Subst.Inv ((v, r) :: rest)) :
    ∀ t : Ty, Ty.applySim ((v, r) :: rest) t =
      Ty.applySim rest (Subst.replace t v r)
  | .int => rfl
  | .bool => rfl
  | .float => rfl
  | .var u => by
      by_cases hv : v = u
      · subst hv
        have hr : Ty.applySim rest r = r := by
          apply Ty.applySim_id
          intro w hw
          obtain ⟨p, hp, hpv⟩ := hw
          have := hinv.noKeyInRange p (List.mem_cons_of_mem _ hp)
            (v, r) (List.mem_cons_self _ _)
          rw [hpv] at this
          exact this
        simp [Ty.applySim, Subst.lookupVar, Subst.replace, hr]
      · have hne : ¬ ((v, r).1 = u) := hv
        simp only [Ty.applySim, Subst.lookupVar, hne, if_false, Subst.replace, hv,
          if_false]
  | .fn a b => by
      simp [Ty.applySim, Subst.replace, Ty.applySim_cons v r rest hinv a,
        Ty.applySim_cons v r rest hinv b]

/-- On invariant-satisfying substitutions, the source's entry-order fold
equals simultaneous substitution — hence is independent of the `HashMap`
iteration order. -/
theorem Ty.apply_eq_applySim (s : Subst) (hs : Subst.Inv s) :
    ∀ t : Ty, Ty.apply t s = Ty.applySim s t := by
  induction s with
  | nil =>
    intro t
    rw [Ty.applySim_id [] t (fun w hw => by rcases hw with ⟨p, hp, _⟩; cases hp)]
    rfl
  | cons q rest ih =>
    intro t
    obtain ⟨v, r⟩ := q
    rw [show Ty.apply t ((v, r) :: rest) = Ty.apply (Subst.replace t v r) rest from rfl,
      ih (hs.tail _ _), Ty.applySim_cons v r rest hs]

theorem Subst.lookupVar_perm (p s : Subst) (hperm : p.Perm s)
    (hnd : (s.map Prod.fst).Nodup) : ∀ v, Subst.lookupVar p v = Subst.lookupVar s v := by
  induction hperm with
  | nil => intro v; rfl
  | cons x l ih =>
    intro v
    by_cases hx : x.1 = v
    · simp [Subst.lookupVar, hx]
    · simp only [Subst.lookupVar, hx, if_false]
      exact ih (List.nodup_cons.mp hnd).2 v
  | swap x y l =>
    intro v
    by_cases hy : y.1 = v
    · by_cases hx : x.1 = v
      · exfalso
        simp only [List.map_cons, List.nodup_cons] at hnd
        apply hnd.1
        have hxy : x.1 = y.1 := by rw [hx, hy]
        rw [hxy]
        exact List.mem_cons_self _ _
      · simp [Subst.lookupVar, hx, hy]
    · by_cases hx : x.1 = v
      · simp [Subst.lookupVar, hx, hy]
      · simp [Subst.lookupVar, hx, hy]
  | trans h12 h23 ih12 ih23 =>
    intro v
    have hnd2 := (List.Perm.nodup_iff (h23.map Prod.fst)).mpr hnd
    rw [ih12 hnd2 v, ih23 hnd v]

theorem Ty.applySim_congr (p s : Subst)
    (h : ∀ v, Subst.lookupVar p v = Subst.lookupVar s v) :
    ∀ t : Ty, Ty.applySim p t = Ty.applySim s t
  | .int => rfl
  | .bool => rfl
  | .float => rfl
  | .var u => by simp [Ty.applySim, h u]
  | .fn a b => by
      simp [Ty.applySim, Ty.applySim_congr p s h a, Ty.applySim_congr p s h b]

theorem Subst.Inv.perm (p s : Subst) (hperm : p.Perm s) (hs : Subst.Inv s) :
    Subst.Inv p := by
  refine ⟨(List.Perm.nodup_iff (hperm.map Prod.fst)).mpr hs.nodup, ?_⟩
  intro q hq p2 hp2
  exact hs.noKeyInRange q (hperm.mem_iff.mp hq) p2 (hperm.mem_iff.mp hp2)

/-- Core of claim C6: on an invariant-satisfying substitution, the
entry-order fold yields the same type for every iteration order. -/
theorem Ty.apply_perm (s p : Subst) (hs : Subst.Inv s) (hperm : p.Perm s)
    (t : Ty) : Ty.apply t p = Ty.apply t s := by
  rw [Ty.apply_eq_applySim p (Subst.Inv.perm p s hperm hs),
    Ty.apply_eq_applySim s hs]
  exact Ty.applySim_congr p s (Subst.lookupVar_perm p s hperm hs.nodup) t

theorem Ty.occurs_applySim (s : Subst) (w : Nat) :
    ∀ t : Ty, Ty.occurs w (Ty.applySim s t) = true →
      (Ty.occurs w t = true ∧ ¬ Subst.inDom s w) ∨ Subst.inRange s w
  | .int, h => by simp [Ty.applySim, Ty.occurs] at h
  | .bool, h => by simp [Ty.applySim, Ty.occurs] at h
  | .float, h => by simp [Ty.applySim, Ty.occurs] at h
  | .var u, h => by
      cases hl : Subst.lookupVar s u with
      | none =>
        simp only [Ty.applySim, hl, Ty.occurs, decide_eq_true_eq] at h
        subst h
        exact Or.inl ⟨by simp [Ty.occurs], (Subst.lookupVar_none_iff s _).mp hl⟩
      | some r =>
        simp only [Ty.applySim, hl] at h
        exact Or.inr ⟨(u, r), Subst.mem_of_lookupVar s u r hl, h⟩
  | .fn a b, h => by
      simp only [Ty.applySim, Ty.occurs, Bool.or_eq_true] at h
      rcases h with h | h
      · rcases Ty.occurs_applySim s w a h with ⟨h1, h2⟩ | h1
        · exact Or.inl ⟨by simp [Ty.occurs, h1], h2⟩
        · exact Or.inr h1
      · rcases Ty.occurs_applySim s w b h with ⟨h1, h2⟩ | h1
        · exact Or.inl ⟨by simp [Ty.occurs, h1], h2⟩
        · exact Or.inr h1

theorem Subst.not_inRange_of_inv (s : Subst) (hs : Subst.Inv s) (w : Nat)
    (hw : Subst.inDom s w) : ¬ Subst.inRange s w := by
  rintro ⟨p, hp, hocc⟩
  obtain ⟨q, hq, hqw⟩ := hw
  have := hs.noKeyInRange q hq p hp
  rw [hqw] at this
  rw [this] at hocc
  cases hocc

theorem Ty.applySim_removes_dom (s : Subst) (hs : Subst.Inv s) (w : Nat)
    (hw : Subst.inDom s w) (t : Ty) :
    Ty.occurs w (Ty.applySim s t) = false := by
  cases h : Ty.occurs w (Ty.applySim s t) with
  | false => rfl
  | true =>
    rcases Ty.occurs_applySim s w t h with ⟨_, h2⟩ | h2
    · exact absurd hw h2
    · exact absurd h2 (Subst.not_inRange_of_inv s hs w hw)

theorem Subst.lookupVar_append (l1 l2 : Subst) (v : Nat) :
    Subst.lookupVar (l1 ++ l2) v =
      (Subst.lookupVar l1 v).or (Subst.lookupVar l2 v) := by
  induction l1 with
  | nil => simp [Subst.lookupVar]
  | cons q rest ih =>
    by_cases hq : q.1 = v
    · simp [Subst.lookupVar, hq]
    · simp [Subst.lookupVar, hq, ih]

theorem Subst.lookupVar_map_compose (s o : Subst) (v : Nat) :
    Subst.lookupVar
      (s.map fun p =>
        match Subst.lookupVar o p.1 with
        | some w => (p.1, w)
        | none => (p.1, Ty.apply p.2 o)) v =
      (Subst.lookupVar s v).map fun t =>
        match Subst.lookupVar o v with
        | some w => w
        | none => Ty.apply t o := by
  induction s with
  | nil => rfl
  | cons q rest ih =>
    by_cases hq : q.1 = v
    · subst hq
      cases ho : Subst.lookupVar o q.1 with
      | none => simp [Subst.lookupVar, ho]
      | some w => simp [Subst.lookupVar, ho]
    · cases ho : Subst.lookupVar o q.1 with
      | none => simpa [Subst.lookupVar, ho, hq] using ih
      | some w => simpa [Subst.lookupVar, ho, hq] using ih

theorem Subst.lookupVar_filter_keep (o : Subst) (v : Nat)
    (pr : Nat × Ty → Bool) (hK : ∀ p ∈ o, p.1 = v → pr p = true) :
    Subst.lookupVar (o.filter pr) v = Subst.lookupVar o v := by
  induction o with
  | nil => rfl
  | cons q rest ih =>
    have ih2 := ih fun p hp => hK p (List.mem_cons_of_mem q hp)
    by_cases hpr : pr q = true
    · simp only [List.filter_cons, hpr, if_true]
      by_cases hq : q.1 = v
      · simp [Subst.lookupVar, hq]
      · simp [Subst.lookupVar, hq, ih2]
    · have hq : ¬ (q.1 = v) := fun h => hpr (hK q (List.mem_cons_self q rest) h)
      simp only [List.filter_cons, hpr, if_false]
      simp [Subst.lookupVar, hq, ih2]

theorem Subst.compose_lookup_some (s o : Subst) (v : Nat) (t : Ty)
    (hv : Subst.lookupVar s v = some t) (hdisj : ¬ Subst.inDom o v) :
    Subst.lookupVar (s.compose o) v = some (Ty.apply t o) := by
  unfold Subst.compose
  rw [Subst.lookupVar_append, Subst.lookupVar_map_compose, hv,
    (Subst.lookupVar_none_iff o v).mpr hdisj]
  rfl

theorem Subst.compose_lookup_none (s o : Subst) (v : Nat)
    (hv : Subst.lookupVar s v = none) :
    Subst.lookupVar (s.compose o) v = Subst.lookupVar o v := by
  unfold Subst.compose
  rw [Subst.lookupVar_append, Subst.lookupVar_map_compose, hv]
  show Subst.lookupVar (o.filter _) v = _
  rw [Subst.lookupVar_filter_keep]
  intro p hp hpv
  simp [hpv, Subst.hasKey, hv]

theorem Subst.mem_compose (s o : Subst)
    (hdisj : ∀ v, Subst.inDom s v → ¬ Subst.inDom o v) (p : Nat × Ty)
    (hp : p ∈ s.compose o) :
    (∃ q ∈ s, p = (q.1, Ty.apply q.2 o)) ∨ p ∈ o := by
  unfold Subst.compose at hp
  rcases List.mem_append.mp hp with hp | hp
  · obtain ⟨q, hq, hqe⟩ := List.mem_map.mp hp
    left
    refine ⟨q, hq, ?_⟩
    have ho : Subst.lookupVar o q.1 = none :=
      (Subst.lookupVar_none_iff o q.1).mpr (hdisj q.1 ⟨q, hq, rfl⟩)
    rw [ho] at hqe
    exact hqe.symm
  · exact Or.inr (List.mem_filter.mp hp).1

theorem Subst.inDom_compose (s o : Subst) (v : Nat)
    (hdisj : ∀ v, Subst.inDom s v → ¬ Subst.inDom o v)
    (hv : Subst.inDom (s.compose o) v) :
    Subst.inDom s v ∨ Subst.inDom o v := by
  obtain ⟨p, hp, hpv⟩ := hv
  rcases Subst.mem_compose s o hdisj p hp with ⟨q, hq, hqe⟩ | hp2
  · left
    refine ⟨q, hq, ?_⟩
    rw [hqe] at hpv
    exact hpv
  · exact Or.inr ⟨p, hp2, hpv⟩

theorem Subst.compose_nodup (s o : Subst) (hs : (s.map Prod.fst).Nodup)
    (ho : (o.map Prod.fst).Nodup) :
    ((s.compose o).map Prod.fst).Nodup := by
  unfold Subst.compose
  rw [List.map_append]
  have hmap : (List.map Prod.fst (s.map fun p =>
      match Subst.lookupVar o p.1 with
      | some w => (p.1, w)
      | none => (p.1, Ty.apply p.2 o))) = s.map Prod.fst := by
    rw [List.map_map]
    apply List.map_congr_left
    intro p _
    cases h : Subst.lookupVar o p.1 <;> simp [Function.comp, h]
  rw [hmap]
  apply List.Nodup.append hs
  · exact (((List.filter_sublist o).map Prod.fst)).nodup ho
  · intro v hv1 hv2
    obtain ⟨q, hq, hqv⟩ := List.mem_map.mp hv1
    obtain ⟨p, hp, hpv⟩ := List.mem_map.mp hv2
    have hpf := (List.mem_filter.mp hp).2
    simp only [Subst.hasKey, decide_eq_true_eq] at hpf
    have : Subst.inDom s v := ⟨q, hq, hqv⟩
    have hsome := (Subst.lookupVar_isSome_iff s p.1).mpr (hpv ▸ this)
    simp only [Bool.not_eq_true] at hpf
    rw [hsome] at hpf
    cases hpf

theorem Subst.Inv.no_occ (s : Subst) (hs : Subst.Inv s) (w : Nat)
    (hw : Subst.inDom s w) (p : Nat × Ty) (hp : p ∈ s) :
    Ty.occurs w p.2 = false := by
  obtain ⟨q, hq, hqw⟩ := hw
  have := hs.noKeyInRange q hq p hp
  rw [hqw] at this
  exact this

theorem Subst.compose_Inv (s o : Subst) (hs : Subst.Inv s) (ho : Subst.Inv o)
    (hdisj : ∀ v, Subst.inDom s v → ¬ Subst.inDom o v)
    (hso : ∀ v, Subst.inDom s v → ¬ Subst.inRange o v) :
    Subst.Inv (s.compose o) := by
  refine ⟨Subst.compose_nodup s o hs.nodup ho.nodup, ?_⟩
  intro q hq p hp
  have hqd : Subst.inDom s q.1 ∨ Subst.inDom o q.1 :=
    Subst.inDom_compose s o q.1 hdisj ⟨q, hq, rfl⟩
  rcases Subst.mem_compose s o hdisj p hp with ⟨q2, hq2, hq2e⟩ | hpo
  · rw [hq2e]
    show Ty.occurs q.1 (Ty.apply q2.2 o) = false
    rw [Ty.apply_eq_applySim o ho]
    cases hocc : Ty.occurs q.1 (Ty.applySim o q2.2) with
    | false => rfl
    | true =>
      exfalso
      rcases Ty.occurs_applySim o q.1 q2.2 hocc with ⟨h1, h2⟩ | h1
      · rcases hqd with hqd | hqd
        · rw [Subst.Inv.no_occ s hs q.1 hqd q2 hq2] at h1
          cases h1
        · exact h2 hqd
      · rcases hqd with hqd | hqd
        · exact hso q.1 hqd h1
        · exact Subst.not_inRange_of_inv o ho q.1 hqd h1
  · rcases hqd with hqd | hqd
    · cases hocc : Ty.occurs q.1 p.2 with
      | false => rfl
      | true => exact absurd ⟨p, hpo, hocc⟩ (hso q.1 hqd)
    · exact Subst.Inv.no_occ o ho q.1 hqd p hpo

theorem Subst.compose_applySim (s o : Subst) (hs : Subst.Inv s)
    (ho : Subst.Inv o) (hdisj : ∀ v, Subst.inDom s v → ¬ Subst.inDom o v) :
    ∀ t : Ty, Ty.applySim (s.compose o) t = Ty.applySim o (Ty.applySim s t)
  | .int => rfl
  | .bool => rfl
  | .float => rfl
  | .var w => by
      cases hls : Subst.lookupVar s w with
      | some r =>
        have hdom : Subst.inDom s w :=
          (Subst.lookupVar_isSome_iff s w).mp (by simp [hls])
        rw [show Ty.applySim (s.compose o) (.var w) =
            (match Subst.lookupVar (s.compose o) w with
             | some t => t
             | none => Ty.var w) from rfl,
          Subst.compose_lookup_some s o w r hls (hdisj w hdom)]
        rw [show Ty.applySim s (.var w) =
            (match Subst.lookupVar s w with
             | some t => t
             | none => Ty.var w) from rfl, hls]
        exact Ty.apply_eq_applySim o ho r
      | none =>
        rw [show Ty.applySim (s.compose o) (.var w) =
            (match Subst.lookupVar (s.compose o) w with
             | some t => t
             | none => Ty.var w) from rfl,
          Subst.compose_lookup_none s o w hls]
        rw [show Ty.applySim s (.var w) =
            (match Subst.lookupVar s w with
             | some t => t
             | none => Ty.var w) from rfl, hls]
        rfl
  | .fn a b => by
      simp [Ty.applySim, Subst.compose_applySim s o hs ho hdisj a,
        Subst.compose_applySim s o hs ho hdisj b]

/-- Claim C5 (amended): with `τ = self` applied first and `σ = other`
applied second, `Subst::compose` satisfies `(σ ∘ τ)(t) = σ(τ(t))` —
i.e. `(self.compose(other))(t) = other(self(t))` — whenever the two
substitutions' domains are disjoint, no key of either occurs in its own
ranges (the idempotence invariant maintained by the unifier), and no key
of `self` occurs in a range of `other`.  On a key present in both maps,
`other`'s entry — not `self`'s — overrides, and the equation can then
fail (see the counterexample). -/
theorem compose_apply_amended (s o : Subst) (hs : Subst.Inv s)
    (ho : Subst.Inv o) (hdisj : ∀ v, Subst.inDom s v → ¬ Subst.inDom o v)
    (hso : ∀ v, Subst.inDom s v → ¬ Subst.inRange o v) (t : Ty) :
    Ty.apply t (s.compose o) = Ty.apply (Ty.apply t s) o := by
  rw [Ty.apply_eq_applySim (s.compose o) (Subst.compose_Inv s o hs ho hdisj hso),
    Ty.apply_eq_applySim s hs, Ty.apply_eq_applySim o ho]
  exact Subst.compose_applySim s o hs ho hdisj t

/-- Witness for `compose_apply_amended` on disjoint idempotent
substitutions. -/
theorem compose_apply_amended_witness :
    Subst.Inv [(3, Ty.var 1)] ∧ Subst.Inv [(1, Ty.int)] ∧
    Ty.apply (.fn (.var 3) (.var 2)) (Subst.compose [(3, Ty.var 1)] [(1, Ty.int)]) =
      Ty.apply (Ty.apply (.fn (.var 3) (.var 2)) [(3, Ty.var 1)]) [(1, Ty.int)] := by
  have hs : Subst.Inv [(3, Ty.var 1)] := ⟨by decide, by decide⟩
  have ho : Subst.Inv [(1, Ty.int)] := ⟨by decide, by decide⟩
  refine ⟨hs, ho, ?_⟩
  apply compose_apply_amended [(3, Ty.var 1)] [(1, Ty.int)] hs ho
  · intro v hv
    obtain ⟨p, hp, hpv⟩ := hv
    rcases List.mem_singleton.mp hp with rfl
    rintro ⟨q, hq, hqv⟩
    rcases List.mem_singleton.mp hq with rfl
    rw [← hpv] at hqv
    cases hqv
  · intro v hv
    obtain ⟨p, hp, hpv⟩ := hv
    rcases List.mem_singleton.mp hp with rfl
    rintro ⟨q, hq, hqocc⟩
    rcases List.mem_singleton.mp hq with rfl
    rw [← hpv] at hqocc
    cases hqocc

/-! ## The unifier maintains the substitution invariant (claim C6) -/

def conHasVar (w : Nat) (c : Constraint) : Bool :=
  Ty.occurs w c.1 || Ty.occurs w c.2

def consHasVar (w : Nat) (cs : List Constraint) : Bool :=
  cs.any (conHasVar w)

/-- Domain and range variables of the output substitution all come from
the input constraints. -/
def Subst.varsIn (s : Subst) (cs : List Constraint) : Prop :=
  ∀ q ∈ s, consHasVar q.1 cs = true ∧
    ∀ w, Ty.occurs w q.2 = true → consHasVar w cs = true

theorem Subst.Inv_nil : Subst.Inv [] :=
  ⟨List.nodup_nil, by intro q hq; cases hq⟩

theorem unifyVar_sound (v : Nat) (t : Ty) (s : Subst)
    (h : unifyVar v t = some s) :
    s = [] ∨ (s = [(v, t)] ∧ Ty.occurs v t = false) := by
  unfold unifyVar at h
  by_cases he : t = .var v
  · rw [if_pos he] at h
    exact Or.inl (Option.some.inj h).symm
  · rw [if_neg he] at h
    by_cases ho : Ty.occurs v t = true
    · rw [if_pos ho] at h
      cases h
    · rw [if_neg ho] at h
      exact Or.inr ⟨(Option.some.inj h).symm, Bool.eq_false_iff.mpr ho⟩

theorem unifyVar_fact (v : Nat) (t : Ty) (s1 : Subst)
    (h : unifyVar v t = some s1) :
    Subst.Inv s1 ∧ ∀ q ∈ s1, q.1 = v ∧ q.2 = t ∧ Ty.occurs v t = false := by
  rcases unifyVar_sound v t s1 h with rfl | ⟨rfl, hocc⟩
  · exact ⟨Subst.Inv_nil, by intro q hq; cases hq⟩
  · refine ⟨⟨by simp, ?_⟩, ?_⟩
    · intro q hq p hp
      rcases List.mem_singleton.mp hq with rfl
      rcases List.mem_singleton.mp hp with rfl
      exact hocc
    · intro q hq
      rcases List.mem_singleton.mp hq with rfl
      exact ⟨rfl, rfl, hocc⟩

theorem applyCon_nil (c : Constraint) : applyCon [] c = c := rfl

theorem applyCons_nil (cs : List Constraint) : applyCons [] cs = cs := by
  induction cs with
  | nil => rfl
  | cons c rest ih =>
    simp only [applyCons, List.map_cons] at ih ⊢
    rw [ih]
    rfl

theorem Ty.occurs_apply_sub (s : Subst) (w : Nat) :
    ∀ t : Ty, Ty.occurs w (Ty.apply t s) = true →
      Ty.occurs w t = true ∨ Subst.inRange s w := by
  induction s with
  | nil =>
    intro t h
    exact Or.inl h
  | cons q rest ih =>
    intro t h
    rw [show Ty.apply t (q :: rest) = Ty.apply (Subst.replace t q.1 q.2) rest
      from rfl] at h
    rcases ih (Subst.replace t q.1 q.2) h with h2 | h2
    · rcases Ty.occurs_replace_sub w q.1 q.2 t h2 with h3 | h3
      · exact Or.inl h3
      · exact Or.inr ⟨q, List.mem_cons_self q rest, h3⟩
    · obtain ⟨p, hp, hocc⟩ := h2
      exact Or.inr ⟨p, List.mem_cons_of_mem q hp, hocc⟩

theorem Ty.occurs_apply_dom (s : Subst) (hs : Subst.Inv s) (w : Nat)
    (hw : Subst.inDom s w) (t : Ty) : Ty.occurs w (Ty.apply t s) = false := by
  rw [Ty.apply_eq_applySim s hs]
  exact Ty.applySim_removes_dom s hs w hw t

theorem consHasVar_cons (w : Nat) (c : Constraint) (tail : List Constraint) :
    consHasVar w (c :: tail) = (conHasVar w c || consHasVar w tail) := by
  simp [consHasVar]

theorem consHasVar_applyCons_sub (s : Subst) (cs : List Constraint) (w : Nat)
    (h : consHasVar w (applyCons s cs) = true) :
    consHasVar w cs = true ∨ Subst.inRange s w := by
  simp only [consHasVar, applyCons, List.any_map, List.any_eq_true] at h
  obtain ⟨c, hc, hcw⟩ := h
  simp only [Function.comp, applyCon, conHasVar, Bool.or_eq_true] at hcw
  rcases hcw with hcw | hcw
  · rcases Ty.occurs_apply_sub s w c.1 hcw with h2 | h2
    · exact Or.inl (by
        simp only [consHasVar, List.any_eq_true]
        exact ⟨c, hc, by simp [conHasVar, h2]⟩)
    · exact Or.inr h2
  · rcases Ty.occurs_apply_sub s w c.2 hcw with h2 | h2
    · exact Or.inl (by
        simp only [consHasVar, List.any_eq_true]
        exact ⟨c, hc, by simp [conHasVar, h2]⟩)
    · exact Or.inr h2

theorem consHasVar_applyCons_dom (s : Subst) (hs : Subst.Inv s)
    (cs : List Constraint) (w : Nat) (hw : Subst.inDom s w) :
    consHasVar w (applyCons s cs) = false := by
  simp only [consHasVar, applyCons, List.any_map, List.any_eq_false]
  intro c hc
  simp only [Function.comp, applyCon, conHasVar, Bool.or_eq_true, Bool.not_eq_true]
  rw [Ty.occurs_apply_dom s hs w hw c.1, Ty.occurs_apply_dom s hs w hw c.2]
  simp

theorem unifyVar_fact_L (v : Nat) (t2 : Ty) (s1 : Subst)
    (h : unifyVar v t2 = some s1) :
    Subst.Inv s1 ∧ ∀ q ∈ s1, conHasVar q.1 (Ty.var v, t2) = true ∧
      ∀ w, Ty.occurs w q.2 = true → conHasVar w (Ty.var v, t2) = true := by
  obtain ⟨hinv, hmem⟩ := unifyVar_fact v t2 s1 h
  refine ⟨hinv, ?_⟩
  intro q hq
  obtain ⟨hq1, hq2, _⟩ := hmem q hq
  constructor
  · simp [conHasVar, Ty.occurs, hq1]
  · intro w hw
    rw [hq2] at hw
    simp [conHasVar, hw]

theorem unifyVar_fact_R (t1 : Ty) (v : Nat) (s1 : Subst)
    (h : unifyVar v t1 = some s1) :
    Subst.Inv s1 ∧ ∀ q ∈ s1, conHasVar q.1 (t1, Ty.var v) = true ∧
      ∀ w, Ty.occurs w q.2 = true → conHasVar w (t1, Ty.var v) = true := by
  obtain ⟨hinv, hmem⟩ := unifyVar_fact v t1 s1 h
  refine ⟨hinv, ?_⟩
  intro q hq
  obtain ⟨hq1, hq2, _⟩ := hmem q hq
  constructor
  · simp [conHasVar, Ty.occurs, hq1]
  · intro w hw
    rw [hq2] at hw
    simp [conHasVar, hw]

theorem consHasVar_pair_fn (w : Nat) (a1 r1 a2 r2 : Ty)
    (h : consHasVar w [(a1, a2), (r1, r2)] = true) :
    conHasVar w (Ty.fn a1 r1, Ty.fn a2 r2) = true := by
  simp only [consHasVar, conHasVar, Ty.occurs, List.any_cons, List.any_nil,
    Bool.or_eq_true, Bool.or_false] at h ⊢
  tauto

/-- The unifier's output satisfies the substitution invariant of §4.D,
and all its domain and range variables come from the input constraints. -/
theorem unify_sound : ∀ (fuel : Nat) (cs : List Constraint) (s : Subst),
    unify fuel cs = some s → Subst.Inv s ∧ Subst.varsIn s cs := by
  intro fuel
  induction fuel with
  | zero =>
    intro cs s h
    simp [unify] at h
  | succ fuel ih =>
    have h1fact : ∀ (c : Constraint) (s1 : Subst), unify1 fuel c = some s1 →
        Subst.Inv s1 ∧ ∀ q ∈ s1, conHasVar q.1 c = true ∧
          ∀ w, Ty.occurs w q.2 = true → conHasVar w c = true := by
      rintro ⟨t1, t2⟩ s1 h1
      cases t1 with
      | var v =>
        have h1v : unifyVar v t2 = some s1 := by
          cases t2 <;> simpa [unify1] using h1
        exact unifyVar_fact_L v t2 s1 h1v
      | int =>
        cases t2 with
        | int =>
          simp only [unify1, Option.some.injEq] at h1
          subst h1
          exact ⟨Subst.Inv_nil, by intro q hq; cases hq⟩
        | var v => exact unifyVar_fact_R .int v s1 (by simpa [unify1] using h1)
        | bool => simp [unify1] at h1
        | float => simp [unify1] at h1
        | fn a b => simp [unify1] at h1
      | bool =>
        cases t2 with
        | bool =>
          simp only [unify1, Option.some.injEq] at h1
          subst h1
          exact ⟨Subst.Inv_nil, by intro q hq; cases hq⟩
        | var v => exact unifyVar_fact_R .bool v s1 (by simpa [unify1] using h1)
        | int => simp [unify1] at h1
        | float => simp [unify1] at h1
        | fn a b => simp [unify1] at h1
      | float =>
        cases t2 with
        | float =>
          simp only [unify1, Option.some.injEq] at h1
          subst h1
          exact ⟨Subst.Inv_nil, by intro q hq; cases hq⟩
        | var v => exact unifyVar_fact_R .float v s1 (by simpa [unify1] using h1)
        | int => simp [unify1] at h1
        | bool => simp [unify1] at h1
        | fn a b => simp [unify1] at h1
      | fn a1 r1 =>
        cases t2 with
        | var v => exact unifyVar_fact_R (.fn a1 r1) v s1 (by simpa [unify1] using h1)
        | fn a2 r2 =>
          have h1u : unify fuel [(a1, a2), (r1, r2)] = some s1 := by
            simpa [unify1] using h1
          obtain ⟨hinv, hvars⟩ := ih [(a1, a2), (r1, r2)] s1 h1u
          refine ⟨hinv, ?_⟩
          intro q hq
          obtain ⟨hk, hr⟩ := hvars q hq
          exact ⟨consHasVar_pair_fn q.1 a1 r1 a2 r2 hk,
            fun w hw => consHasVar_pair_fn w a1 r1 a2 r2 (hr w hw)⟩
        | int => simp [unify1] at h1
        | bool => simp [unify1] at h1
        | float => simp [unify1] at h1
    intro cs s h
    cases cs with
    | nil =>
      have hs : s = [] := by simpa [unify] using h.symm
      subst hs
      exact ⟨Subst.Inv_nil, by intro q hq; cases hq⟩
    | cons c tail =>
      rw [unify_cons_eq] at h
      cases h1 : unify1 fuel c with
      | none => rw [h1] at h; cases h
      | some s1 =>
        rw [h1] at h
        simp only [Option.pure_def, Option.bind_eq_bind, Option.some_bind] at h
        cases h2 : unify fuel (applyCons s1 tail) with
        | none =>
          rw [h2] at h
          cases h
        | some s2 =>
          rw [h2] at h
          simp only [Option.pure_def, Option.bind_eq_bind, Option.some_bind,
            Option.some.injEq] at h
          have hcomp : s = Subst.compose s1 s2 := h.symm
          obtain ⟨hinv1, hmem1⟩ := h1fact c s1 h1
          obtain ⟨hinv2, hvars2⟩ := ih (applyCons s1 tail) s2 h2
          -- variables of `s2` never meet the domain of `s1`
          have hnotdom : ∀ v, Subst.inDom s1 v →
              consHasVar v (applyCons s1 tail) = false :=
            fun v hv => consHasVar_applyCons_dom s1 hinv1 tail v hv
          have hdisj : ∀ v, Subst.inDom s1 v → ¬ Subst.inDom s2 v := by
            intro v hv hv2
            obtain ⟨p, hp, hpv⟩ := hv2
            have := (hvars2 p hp).1
            rw [hpv, hnotdom v hv] at this
            cases this
          have hso : ∀ v, Subst.inDom s1 v → ¬ Subst.inRange s2 v := by
            intro v hv hv2
            obtain ⟨p, hp, hocc⟩ := hv2
            have := (hvars2 p hp).2 v hocc
            rw [hnotdom v hv] at this
            cases this
          subst hcomp
          refine ⟨Subst.compose_Inv s1 s2 hinv1 hinv2 hdisj hso, ?_⟩
          -- variable accounting for the composed substitution
          have htailvar : ∀ w, consHasVar w (applyCons s1 tail) = true →
              consHasVar w (c :: tail) = true := by
            intro w hw
            rcases consHasVar_applyCons_sub s1 tail w hw with h3 | h3
            · rw [consHasVar_cons]
              simp [h3]
            · obtain ⟨p, hp, hocc⟩ := h3
              have := (hmem1 p hp).2 w hocc
              rw [consHasVar_cons]
              simp [this]
          intro q hq
          rcases Subst.mem_compose s1 s2 hdisj q hq with ⟨q2, hq2, hq2e⟩ | hq2
          · obtain ⟨hk, hr⟩ := hmem1 q2 hq2
            subst hq2e
            constructor
            · rw [consHasVar_cons]
              simp [hk]
            · intro w hw
              rcases Ty.occurs_apply_sub s2 w q2.2 hw with h3 | h3
              · rw [consHasVar_cons]
                simp [hr w h3]
              · obtain ⟨p, hp, hocc⟩ := h3
                exact htailvar w ((hvars2 p hp).2 w hocc)
          · obtain ⟨hk, hr⟩ := hvars2 q hq2
            exact ⟨htailvar q.1 hk, fun w hw => htailvar w (hr w hw)⟩

mutual
theorem HExpr.applyS_congr : ∀ (e : HExpr) (p s : Subst),
    (∀ t : Ty, Ty.apply t p = Ty.apply t s) → e.applyS p = e.applyS s
  | .lit ty v, p, s, h => by simp [HExpr.applyS, h ty]
  | .var ty n, p, s, h => by simp [HExpr.applyS, h ty]
  | .ite ty t a b, p, s, h => by
      simp [HExpr.applyS, h ty, HExpr.applyS_congr t p s h,
        HExpr.applyS_congr a p s h, HExpr.applyS_congr b p s h]
  | .letE ty bty bn ba bv body, p, s, h => by
      simp [HExpr.applyS, h ty, h bty, HExpr.applyS_congr body p s h]
  | .letrec ty bs body, p, s, h => by
      simp [HExpr.applyS, h ty, HBinds.applySBinds_congr bs p s h,
        HExpr.applyS_congr body p s h]
  | .lam ty pty pn pa body, p, s, h => by
      simp [HExpr.applyS, h ty, h pty, HExpr.applyS_congr body p s h]
  | .app ty f a, p, s, h => by
      simp [HExpr.applyS, h ty, HExpr.applyS_congr f p s h,
        HExpr.applyS_congr a p s h]

theorem HBinds.applySBinds_congr : ∀ (bs : HBinds) (p s : Subst),
    (∀ t : Ty, Ty.apply t p = Ty.apply t s) → bs.applyS p = bs.applyS s
  | .nil, _, _, _ => rfl
  | .cons bty bn ba bv rest, p, s, h => by
      simp [HBinds.applyS, h bty, HBinds.applySBinds_congr rest p s h]
end

/-- Claim C6: the inference pipeline is deterministic.  The only
run-to-run nondeterminism in the source is the iteration order of the
substitution's `HashMap`, over which `Type::apply` folds; it is modelled
as an arbitrary permutation `p` of the entry list.  For any two orders,
the substitution denotes the same function on types, and applying it to
the expression tree (`infer_and_apply`'s final step) gives a bit-identical
typed tree — the type attached to every node is the same across runs. -/
theorem infer_deterministic (e : HExpr) (cs : List Constraint) (fuel : Nat)
    (s p : Subst) (hc : collect e = .ok cs) (hu : unify fuel cs = some s)
    (hp : p.Perm s) :
    (∀ t : Ty, Ty.apply t p = Ty.apply t s) ∧ e.applyS p = e.applyS s := by
  have hinv := (unify_sound fuel cs s hu).1
  have happ : ∀ t : Ty, Ty.apply t p = Ty.apply t s :=
    fun t => Ty.apply_perm s p hinv hp t
  exact ⟨happ, HExpr.applyS_congr e p s happ⟩

/-- Witness for `infer_deterministic`: the identity lambda `\a -> a`, its
collected constraints, the unifier's solution, and a reversed iteration
order. -/
theorem infer_deterministic_witness :
    collect (.lam (.var 0) (.var 1) "a" none (.var (.var 2) "a")) =
      .ok [(Ty.var 0, Ty.fn (.var 1) (.var 2)), (Ty.var 2, Ty.var 1)] ∧
    unify 10 [(Ty.var 0, Ty.fn (.var 1) (.var 2)), (Ty.var 2, Ty.var 1)] =
      some [(0, Ty.fn (.var 1) (.var 1)), (2, Ty.var 1)] ∧
    List.Perm ([(2, Ty.var 1), (0, Ty.fn (.var 1) (.var 1))] : Subst)
      [(0, Ty.fn (.var 1) (.var 1)), (2, Ty.var 1)] ∧
    ((∀ t : Ty, Ty.apply t [(2, Ty.var 1), (0, Ty.fn (.var 1) (.var 1))] =
        Ty.apply t [(0, Ty.fn (.var 1) (.var 1)), (2, Ty.var 1)]) ∧
      HExpr.applyS (.lam (.var 0) (.var 1) "a" none (.var (.var 2) "a"))
          [(2, Ty.var 1), (0, Ty.fn (.var 1) (.var 1))] =
        HExpr.applyS (.lam (.var 0) (.var 1) "a" none (.var (.var 2) "a"))
          [(0, Ty.fn (.var 1) (.var 1)), (2, Ty.var 1)]) :=
  ⟨by decide, rfl, by decide,
    infer_deterministic (.lam (.var 0) (.var 1) "a" none (.var (.var 2) "a"))
      [(Ty.var 0, Ty.fn (.var 1) (.var 2)), (Ty.var 2, Ty.var 1)] 10
      [(0, Ty.fn (.var 1) (.var 1)), (2, Ty.var 1)]
      [(2, Ty.var 1), (0, Ty.fn (.var 1) (.var 1))]
      (by decide) rfl (by decide)⟩

end SiMPL
